import Mathlib

/-!
Shallow embedding of the open-addressing hash table in src/HashTable.cpp
(class OAHashTable<T>), together with proofs checking the specification's
claims against it.

Modelling conventions:
* C keys (const char pointers) are modelled as Option (List Char); none is
  the null pointer.  The per-slot private key copy is a List Char.
* The stored value type T is used in a pointer-like way by the source
  (compared against null, released through FreeProc_), so a slot's data
  field is an Option V; none models a null T.
* Machine integers are Nat; the one place where unsigned 32-bit wrap-around
  is observable, the expression (currentIndex - stride) % tableSize in
  packTable, is modelled exactly by u32sub.
* max_load_factor and growth_factor (C doubles) are modelled as exact
  rationals.  The comparison (Count_+1)/TableSize_ > max_load_factor is
  written with Rat.divInt (exact integer-pair division, identical to / on
  the rationals involved) so that it stays kernel-executable.
* The FreeProc_ release callback is modelled by a Bool flag saying whether
  one is configured, plus an instrumentation field released in the table
  state that records every value the table releases through it.
* The mutually recursive insert / resizeTable / packTable call graph of the
  source is not structurally terminating (the source itself can loop for
  degenerate configurations), so the recursive entry points take a fuel
  argument; a result of none means the computation did not finish within
  the given fuel.  All theorems about successful operations hypothesise a
  some result, so fuel exhaustion never masquerades as behaviour.
-/

namespace OAHT

/-- Decidable equality for Except results, so that concrete runs of the
embedded operations can be checked by the kernel. -/
instance {e a : Type} [DecidableEq e] [DecidableEq a] : DecidableEq (Except e a)
  | .error x, .error y =>
    if h : x = y then .isTrue (by rw [h]) else .isFalse (by intro hc; cases hc; exact h rfl)
  | .error _, .ok _ => .isFalse (by intro hc; cases hc)
  | .ok _, .error _ => .isFalse (by intro hc; cases hc)
  | .ok x, .ok y =>
    if h : x = y then .isTrue (by rw [h]) else .isFalse (by intro hc; cases hc; exact h rfl)

/-- A C key: the slot's private copy of a string of characters. -/
abbrev CKey := List Char

/-- Slot state marker, as in OAHashTable.h: OCCUPIED, UNOCCUPIED, DELETED. -/
inductive SlotState where
  | OCCUPIED
  | UNOCCUPIED
  | DELETED
deriving DecidableEq, Repr

/-- One slot of the table: state marker, private key copy, stored value.
The data field is Option V because the source treats T as nullable
(table[index].data is compared against null and set to nullptr). -/
structure OAHTSlot (V : Type) where
  State : SlotState
  Key : CKey
  data : Option V
deriving DecidableEq, Repr

instance (V : Type) : Inhabited (OAHTSlot V) := ⟨⟨.UNOCCUPIED, [], none⟩⟩

/-- Deletion policy from OAHashTable.h. -/
inductive OAHTDeletionPolicy where
  | MARK
  | PACK
deriving DecidableEq, Repr

/-- Exception kinds used by the source: E_ITEM_NOT_FOUND for missing keys,
E_NO_MEMORY both for a null key on insert and for a full table. -/
inductive OAHashTableException where
  | E_ITEM_NOT_FOUND
  | E_DUPLICATE
  | E_NO_MEMORY
deriving DecidableEq, Repr

/-- Construction configuration (immutable after construction), mirroring
OAHTConfig.  MAX_KEYLEN models the compile-time key-buffer size constant
from the header (which is not part of src/): keys are stored truncated to
MAX_KEYLEN - 1 characters via strncpy.  FreeProc is the Bool flag saying
whether a release callback was configured. -/
structure OAHTConfig (V : Type) where
  InitialTableSize : Nat
  PrimaryHashFunc : CKey → Nat → Nat
  SecondaryHashFunc : Option (CKey → Nat → Nat)
  MaxLoadFactor : ℚ
  GrowthFactor : ℚ
  DeletionPolicy : OAHTDeletionPolicy
  FreeProc : Bool
  MAX_KEYLEN : Nat

/-- The mutable table state: backing slot array, occupied count, lifetime
probe counter, lifetime expansion counter, plus the instrumentation list
released recording every value handed to the configured release callback. -/
structure HT (V : Type) where
  table : List (OAHTSlot V)
  count : Nat
  probes : Nat
  expansions : Nat
  released : List V
deriving DecidableEq, Repr

/-- tableSize is kept equal to the length of the backing array (the source
stores it separately but always updates the two together). -/
def HT.tableSize {V : Type} (s : HT V) : Nat := s.table.length

/-- Probe stride: secondary_hash_func(Key, tableSize - 1) + 1 when a
secondary hash is configured, else 1 (pure linear probing). -/
def strideOf {V : Type} (cfg : OAHTConfig V) (k : CKey) (m : Nat) : Nat :=
  match cfg.SecondaryHashFunc with
  | some h => h k (m - 1) + 1
  | none => 1

/-- strncpy(slot.Key, Key, MAX_KEYLEN - 1) into a zero-initialised buffer:
the stored key is the first MAX_KEYLEN - 1 characters of the argument. -/
def truncKey {V : Type} (cfg : OAHTConfig V) (k : CKey) : CKey :=
  k.take (cfg.MAX_KEYLEN - 1)

/-- Unsigned 32-bit subtraction a - b as computed by the source on unsigned
ints: wraps modulo 2^32 (observable in packTable's stopping index). -/
def u32sub (a b : Nat) : Nat := (a + (2 ^ 32 - b % 2 ^ 32)) % 2 ^ 32

/-- Primality test by trial division (used only inside GetClosestPrime). -/
def isPrimeB (n : Nat) : Bool :=
  decide (2 ≤ n) && (List.range (n - 2)).all fun d => decide (n % (d + 2) ≠ 0)

/-- Search upward from cur for the first prime, with enough fuel. -/
def gcpAux : Nat → Nat → Nat
  | 0, cur => cur
  | fuel + 1, cur => if isPrimeB cur then cur else gcpAux fuel (cur + 1)

/-- Modelled from the spec: the external "nearest prime at least n"
number-theory helper GetClosestPrime used to size the backing array; its
implementation file is not part of src/.  (Bertrand's postulate guarantees
the fuel suffices, and all uses in this development are concrete.) -/
def GetClosestPrime (n : Nat) : Nat := gcpAux (2 * n + 4) (max n 2)

/-- The constructor OAHashTable(config): table of GetClosestPrime(initial
size) value-initialised slots, all counters zero. -/
def mkOAHashTable {V : Type} (cfg : OAHTConfig V) : HT V :=
  { table := List.replicate (GetClosestPrime cfg.InitialTableSize) default
    count := 0
    probes := 0
    expansions := 0
    released := [] }

/-- The probe walk shared verbatim by find and remove: starting at idx,
count a probe, stop with the index of the first OCCUPIED slot whose key
compares equal (strcmp == 0), stop empty-handed at the first UNOCCUPIED
slot, otherwise step by stride modulo tableSize until the walk returns to
originalIndex.  Returns (found index if any, probes consumed).  The fuel
starts at tableSize, which the walk can never exhaust before revisiting
originalIndex when originalIndex < tableSize. -/
def searchLoop {V : Type} (table : List (OAHTSlot V)) (m stride originalIndex : Nat)
    (k : CKey) : Nat → Nat → Nat → Option Nat × Nat
  | 0, _, pc => (none, pc)
  | fuel + 1, idx, pc =>
    let slot := table.getD idx default
    if slot.State = .OCCUPIED ∧ slot.Key = k then (some idx, pc + 1)
    else if slot.State = .UNOCCUPIED then (none, pc + 1)
    else
      let idx2 := (idx + stride) % m
      if idx2 = originalIndex then (none, pc + 1)
      else searchLoop table m stride originalIndex k fuel idx2 (pc + 1)

/-- find(Key): null key raises E_ITEM_NOT_FOUND; otherwise walk the probe
sequence, adding the probes consumed to the lifetime counter, and return
the matching slot's data or raise E_ITEM_NOT_FOUND. -/
def findF {V : Type} (cfg : OAHTConfig V) (s : HT V) (Key : Option CKey) :
    Except OAHashTableException (Option V) × HT V :=
  match Key with
  | none => (.error .E_ITEM_NOT_FOUND, s)
  | some k =>
    let m := s.tableSize
    let originalIndex := cfg.PrimaryHashFunc k m
    let stride := strideOf cfg k m
    let r := searchLoop s.table m stride originalIndex k m originalIndex 0
    let s2 := { s with probes := s.probes + r.2 }
    match r.1 with
    | some i => (.ok (s.table.getD i default).data, s2)
    | none => (.error .E_ITEM_NOT_FOUND, s2)

/-- Outcome of the probing loop inside linearProbeInsert: either the loop
placed-or-chose a slot on seeing the first UNOCCUPIED slot (chosen already
resolves the tombstone-reuse preference), or the walk completed a full
cycle carrying the first DELETED index seen, if any. -/
inductive LPIOut where
  | placed (chosen : Nat) (pc : Nat)
  | cycle (deletedIndex : Option Nat) (pc : Nat)
deriving DecidableEq, Repr

/-- The do-while loop of linearProbeInsert: count a probe; on DELETED
record the first such index; on UNOCCUPIED stop, choosing the remembered
deleted index if any, else this index; on OCCUPIED continue; step by
stride mod tableSize until back at originalIndex. -/
def lpiLoop {V : Type} (table : List (OAHTSlot V)) (m stride originalIndex : Nat) :
    Nat → Nat → Nat → Option Nat → LPIOut
  | 0, _, pc, dIdx => .cycle dIdx pc
  | fuel + 1, idx, pc, dIdx =>
    let slot := table.getD idx default
    match slot.State with
    | .DELETED =>
      let d2 := match dIdx with
        | some d => some d
        | none => some idx
      let idx2 := (idx + stride) % m
      if idx2 = originalIndex then .cycle d2 (pc + 1)
      else lpiLoop table m stride originalIndex fuel idx2 (pc + 1) d2
    | .UNOCCUPIED =>
      .placed (match dIdx with | some d => d | none => idx) (pc + 1)
    | .OCCUPIED =>
      let idx2 := (idx + stride) % m
      if idx2 = originalIndex then .cycle dIdx (pc + 1)
      else lpiLoop table m stride originalIndex fuel idx2 (pc + 1) dIdx

/-- linearProbeInsert(Key, Data): run the probing loop; on a chosen slot
write Data, the truncated key copy, mark OCCUPIED, increment count, add
the probes consumed; on a completed cycle reuse the first DELETED slot if
one was seen, else raise E_NO_MEMORY (table full). -/
def linearProbeInsert {V : Type} (cfg : OAHTConfig V) (s : HT V) (Key : CKey)
    (Data : Option V) : Except OAHashTableException Unit × HT V :=
  let m := s.tableSize
  let originalIndex := cfg.PrimaryHashFunc Key m
  let stride := strideOf cfg Key m
  match lpiLoop s.table m stride originalIndex m originalIndex 0 none with
  | .placed chosen pc =>
    (.ok (), { s with
      table := s.table.set chosen ⟨.OCCUPIED, truncKey cfg Key, Data⟩
      count := s.count + 1
      probes := s.probes + pc })
  | .cycle dIdx pc =>
    match dIdx with
    | some d =>
      (.ok (), { s with
        table := s.table.set d ⟨.OCCUPIED, truncKey cfg Key, Data⟩
        count := s.count + 1
        probes := s.probes + pc })
    | none => (.error .E_NO_MEMORY, { s with probes := s.probes + pc })

/-- CheckResizeRequired(): when max_load_factor == 1, resize exactly when
count == tableSize; otherwise when (count + 1) / tableSize exceeds
max_load_factor.  Rat.divInt is exact rational division of the two
integers, and < on the rationals is the executable Rat.blt. -/
def CheckResizeRequired {V : Type} (cfg : OAHTConfig V) (s : HT V) : Bool :=
  if cfg.MaxLoadFactor = 1 then decide (s.count = s.tableSize)
  else decide (cfg.MaxLoadFactor < Rat.divInt (s.count + 1) s.tableSize)

/-- The requested size std::ceil(TableSize_ * growth_factor) passed by
insert to resizeTable, computed exactly: the ceiling of the rational
tableSize * growth_factor.  (tableSize * gf = (tableSize * gf.num) / gf.den
as an exact rational, written with Rat.divInt to stay executable.) -/
def requestedGrowSize {V : Type} (cfg : OAHTConfig V) (s : HT V) : Nat :=
  (Rat.ceil (Rat.divInt (s.tableSize * cfg.GrowthFactor.num) cfg.GrowthFactor.den)).toNat

/-- The rehash loop of resizeTable, abstracted over the insert to call
back into (insert at the remaining fuel): for every OCCUPIED slot of the
old array, in order, insert(slot.Key, slot.data) against the current
state, propagating exceptions with the state as mutated so far. -/
def rehashGo {V : Type}
    (ins : HT V → Option CKey → Option V → Option (Except OAHashTableException Unit × HT V)) :
    HT V → List (OAHTSlot V) → Option (Except OAHashTableException Unit × HT V)
  | s, [] => some (.ok (), s)
  | s, slot :: rest =>
    if slot.State = .OCCUPIED then
      match ins s (some slot.Key) slot.data with
      | none => none
      | some (.error e, s2) => some (.error e, s2)
      | some (.ok _, s2) => rehashGo ins s2 rest
    else rehashGo ins s rest

/-- The body of resizeTable(newSize), abstracted the same way: remember
the old array, allocate a fresh all-UNOCCUPIED array of
GetClosestPrime(newSize) slots, increment expansions, reset count, then
reinsert every OCCUPIED old slot in array order through the public insert;
the old array is discarded (never released through FreeProc_). -/
def resizeGo {V : Type}
    (ins : HT V → Option CKey → Option V → Option (Except OAHashTableException Unit × HT V))
    (s : HT V) (newSize : Nat) : Option (Except OAHashTableException Unit × HT V) :=
  let oldTable := s.table
  let s2 : HT V :=
    { s with
      table := List.replicate (GetClosestPrime newSize) default
      expansions := s.expansions + 1
      count := 0 }
  rehashGo ins s2 oldTable

/-- insert(Key, Data): null key raises E_NO_MEMORY ("Key cannot be null.");
otherwise consult CheckResizeRequired and grow first if needed (the grown
table's rehash loop calls insert back at the remaining fuel), then run
linearProbeInsert.  An exception thrown inside the resize (by a recursive
insert) propagates with the state as mutated so far, exactly as a C++
exception would. -/
def insertF {V : Type} : Nat → OAHTConfig V → HT V → Option CKey → Option V →
    Option (Except OAHashTableException Unit × HT V)
  | 0, _, _, _, _ => none
  | fuel + 1, cfg, s, Key, Data =>
    match Key with
    | none => some (.error .E_NO_MEMORY, s)
    | some k =>
      if CheckResizeRequired cfg s then
        match resizeGo (fun s3 k3 d3 => insertF fuel cfg s3 k3 d3) s (requestedGrowSize cfg s) with
        | none => none
        | some (.error e, s2) => some (.error e, s2)
        | some (.ok _, s2) => some (linearProbeInsert cfg s2 k Data)
      else some (linearProbeInsert cfg s k Data)

/-- resizeTable(newSize) as called with a given fuel for its recursive
inserts; insertF (fuel+1) invokes exactly resizeTableF fuel. -/
def resizeTableF {V : Type} (fuel : Nat) (cfg : OAHTConfig V) (s : HT V) (newSize : Nat) :
    Option (Except OAHashTableException Unit × HT V) :=
  resizeGo (fun s3 k3 d3 => insertF fuel cfg s3 k3 d3) s newSize

/-- The first probe of packTable: step from index by stride until an
UNOCCUPIED slot is reached, storing (currentIndex - stride) % tableSize
computed in unsigned 32-bit arithmetic, or until the walk revisits index.
(The fuel-exhausted value is arbitrary; the source loops forever in the
cases that would reach it.) -/
def packStopLoop {V : Type} (table : List (OAHTSlot V)) (m stride index : Nat) :
    Nat → Nat → Nat
  | 0, cur => cur
  | fuel + 1, cur =>
    let cur2 := (cur + stride) % m
    if (table.getD cur2 default).State = .UNOCCUPIED then u32sub cur2 stride % m
    else if cur2 = index then cur2
    else packStopLoop table m stride index fuel cur2

/-- The second probe of packTable: while currentIndex has not reached
stoppingIndex, step by stride mod the current tableSize, copy the slot's
key and data locally, mark the slot UNOCCUPIED, decrement count, and
reinsert the local copies through the public insert. -/
def packMoveLoop {V : Type} (cfg : OAHTConfig V) (stride stoppingIndex insFuel : Nat) :
    Nat → HT V → Nat → Option (Except OAHashTableException Unit × HT V)
  | 0, _, _ => none
  | fuel + 1, s, cur =>
    if cur = stoppingIndex then some (.ok (), s)
    else
      let m := s.tableSize
      let cur2 := (cur + stride) % m
      let slot := s.table.getD cur2 default
      let localKey := slot.Key
      let localData := slot.data
      let s2 : HT V :=
        { s with
          table := s.table.set cur2 { slot with State := .UNOCCUPIED }
          count := s.count - 1 }
      match insertF insFuel cfg s2 (some localKey) localData with
      | none => none
      | some (.error e, s3) => some (.error e, s3)
      | some (.ok _, s3) => packMoveLoop cfg stride stoppingIndex insFuel fuel s3 cur2

/-- packTable(index): nothing unless the deletion policy is PACK; otherwise
compute the stride from the freed slot's stored key, find the stopping
index with the first probe, then recapture and reinsert with the second. -/
def packTableF {V : Type} (fuel : Nat) (cfg : OAHTConfig V) (s : HT V) (index : Nat) :
    Option (Except OAHashTableException Unit × HT V) :=
  if cfg.DeletionPolicy ≠ .PACK then some (.ok (), s)
  else
    let m := s.tableSize
    let stride := strideOf cfg (s.table.getD index default).Key m
    let stoppingIndex := packStopLoop s.table m stride index m index
    packMoveLoop cfg stride stoppingIndex fuel fuel s index

/-- remove(Key): null key raises E_ITEM_NOT_FOUND ("Key not in table.");
otherwise walk the probe sequence; on a match release the stored value
through FreeProc_ if configured and the data is non-null, then apply the
deletion policy (PACK: mark UNOCCUPIED, run packTable, then decrement
count; MARK: mark DELETED and decrement count); the probes consumed are
added after the loop; if no match was found raise E_ITEM_NOT_FOUND. -/
def removeF {V : Type} (fuel : Nat) (cfg : OAHTConfig V) (s : HT V) (Key : Option CKey) :
    Option (Except OAHashTableException Unit × HT V) :=
  match Key with
  | none => some (.error .E_ITEM_NOT_FOUND, s)
  | some k =>
    let m := s.tableSize
    let originalIndex := cfg.PrimaryHashFunc k m
    let stride := strideOf cfg k m
    let r := searchLoop s.table m stride originalIndex k m originalIndex 0
    match r.1 with
    | none => some (.error .E_ITEM_NOT_FOUND, { s with probes := s.probes + r.2 })
    | some i =>
      let slot := s.table.getD i default
      let s1 : HT V :=
        match slot.data with
        | some v =>
          if cfg.FreeProc then
            { s with
              table := s.table.set i { slot with data := none }
              released := s.released ++ [v] }
          else s
        | none => s
      let slot1 := s1.table.getD i default
      match cfg.DeletionPolicy with
      | .PACK =>
        let s2 : HT V := { s1 with table := s1.table.set i { slot1 with State := .UNOCCUPIED } }
        match packTableF fuel cfg s2 i with
        | none => none
        | some (.error e, s3) => some (.error e, s3)
        | some (.ok _, s3) =>
          some (.ok (), { s3 with count := s3.count - 1, probes := s3.probes + r.2 })
      | .MARK =>
        some (.ok (), { s1 with
          table := s1.table.set i { slot1 with State := .DELETED }
          count := s1.count - 1
          probes := s1.probes + r.2 })

/-! Definitions used only to state and prove properties of the embedding
(they re-express the probe walk mathematically; none of them is part of
the embedded program). -/

/-- The i-th index of the probe sequence from originalIndex with the given
stride: (originalIndex + i * stride) mod tableSize. -/
def probe (m originalIndex stride i : Nat) : Nat := (originalIndex + stride * i) % m

/-- First index i with i0 <= i < i0 + fuel satisfying p, scanning upward. -/
def firstIdxAux (p : Nat → Bool) : Nat → Nat → Option Nat
  | 0, _ => none
  | fuel + 1, i => if p i then some i else firstIdxAux p fuel (i + 1)

/-- First index below m satisfying p. -/
def firstIdxBelow (p : Nat → Bool) (m : Nat) : Option Nat := firstIdxAux p m 0

/-- The slot examined at step i of the probe walk over a given table. -/
abbrev stepSlot {V : Type} (table : List (OAHTSlot V)) (m originalIndex stride i : Nat) :
    OAHTSlot V :=
  table.getD (probe m originalIndex stride i) default

/-- Step i of the walk sees an OCCUPIED slot storing exactly key k. -/
abbrev isMatchAt {V : Type} (table : List (OAHTSlot V)) (m orig stride : Nat) (k : CKey)
    (i : Nat) : Prop :=
  (stepSlot table m orig stride i).State = .OCCUPIED ∧ (stepSlot table m orig stride i).Key = k

/-- Step i of the walk sees an UNOCCUPIED slot. -/
abbrev isEmptyAt {V : Type} (table : List (OAHTSlot V)) (m orig stride : Nat) (i : Nat) : Prop :=
  (stepSlot table m orig stride i).State = .UNOCCUPIED

/-- Step i of the walk sees a DELETED slot (a tombstone). -/
abbrev isDeletedAt {V : Type} (table : List (OAHTSlot V)) (m orig stride : Nat) (i : Nat) : Prop :=
  (stepSlot table m orig stride i).State = .DELETED

/-- The insertion choice described by the spec's own words (section 4.2):
walk the probe sequence; remember the first Deleted step; stop at the
first Empty step, inserting into the remembered tombstone if one was seen
before it, else into the Empty slot; after a full cycle with no Empty
slot use the remembered tombstone if any; otherwise fail.  Returns the
chosen table index and the probes consumed, or none for failure. -/
def lpiSpecChoice {V : Type} (table : List (OAHTSlot V)) (m originalIndex stride : Nat) :
    Option (Nat × Nat) :=
  match firstIdxBelow (fun i => decide (isEmptyAt table m originalIndex stride i)) m,
        firstIdxBelow (fun i => decide (isDeletedAt table m originalIndex stride i)) m with
  | some j, some d =>
    if d < j then some (probe m originalIndex stride d, j + 1)
    else some (probe m originalIndex stride j, j + 1)
  | some j, none => some (probe m originalIndex stride j, j + 1)
  | none, some d => some (probe m originalIndex stride d, m)
  | none, none => none

/-- Some slot with index below the table length is OCCUPIED and stores
exactly the key k. -/
def hasOccKey {V : Type} (s : HT V) (k : CKey) : Prop :=
  ∃ i, i < s.table.length ∧
    (s.table.getD i default).State = .OCCUPIED ∧ (s.table.getD i default).Key = k

instance {V : Type} (s : HT V) (k : CKey) : Decidable (hasOccKey s k) := by
  unfold hasOccKey; infer_instance

/-- Number of OCCUPIED slots in the backing array. -/
def occCount {V : Type} (s : HT V) : Nat :=
  s.table.countP fun sl => decide (sl.State = .OCCUPIED)

/-! Concrete configurations and states used by the witnesses and
counterexamples below.  Hash functions are caller-supplied configuration,
so concrete tables pick simple concrete ones. -/

/-- Capacity 3, constant primary hash 0, pure linear probing, load factor
one, Mark policy, no release callback, MAX_KEYLEN 32. -/
def cfgLinear : OAHTConfig Nat := ⟨3, fun _ _ => 0, none, 1, 2, .MARK, false, 32⟩

/-- The freshly constructed table for cfgLinear. -/
def tblLinear : HT Nat := mkOAHashTable cfgLinear

/-- Capacity 5, primary hash sending key A to 3 and key B to 4, pure
linear probing, Pack policy (used to exhibit packTable's behaviour). -/
def cfgPack : OAHTConfig Nat :=
  ⟨5, (fun k _ => if k = ['A'] then 3 else if k = ['B'] then 4 else 0), none, 1, 2,
    .PACK, false, 32⟩

/-- A reachable cfgPack table: A stored at its home slot 3, B at its home
slot 4, slots 0-2 empty (obtained by inserting A then B). -/
def tblPack : HT Nat :=
  { table := [default, default, default, ⟨.OCCUPIED, ['A'], some 10⟩,
      ⟨.OCCUPIED, ['B'], some 20⟩]
    count := 2
    probes := 0
    expansions := 0
    released := [] }

/-- Capacity 5, constant primary hash 0, max load factor 1/20, growth
factor 3/2, Mark policy: a configuration whose single growth step cannot
restore the load-factor bound. -/
def cfgTinyLF : OAHTConfig Nat :=
  ⟨5, (fun _ _ => 0), none, Rat.divInt 1 20, Rat.divInt 3 2, .MARK, false, 32⟩

/-- Capacity 3 with a secondary hash returning its second argument, so
the stride equals the table size and the probe walk degenerates to the
home slot alone: makes the table-full raise reachable. -/
def cfgDegenerate : OAHTConfig Nat :=
  ⟨3, (fun _ _ => 0), some (fun _ n => n), 1, 2, .MARK, false, 32⟩

/-- A cfgDegenerate table whose home slot 0 is occupied by another key. -/
def tblDegenerate : HT Nat :=
  { table := [⟨.OCCUPIED, ['b'], some 5⟩, default, default]
    count := 1
    probes := 0
    expansions := 0
    released := [] }

/-- Capacity 5, double hashing: keys a and x have home slots 0 and 1 and
strides 1 and 2 respectively, Pack policy. -/
def cfgDouble : OAHTConfig Nat :=
  ⟨5, (fun k _ => if k = ['x'] then 1 else 0),
    some (fun k _ => if k = ['x'] then 1 else 0), 1, 2, .PACK, false, 32⟩

/-- Capacity 5, constant primary hash 0, Mark policy, MAX_KEYLEN 3: keys
are stored truncated to 2 characters. -/
def cfgShortKey : OAHTConfig Nat := ⟨5, (fun _ _ => 0), none, 1, 2, .MARK, false, 3⟩

/-- A cfgLinear table with a tombstone at slot 0 followed by an occupied
slot, exercising tombstone reuse on insert. -/
def tblTomb : HT Nat :=
  { table := [⟨.DELETED, ['z'], none⟩, ⟨.OCCUPIED, ['b'], some 9⟩, default]
    count := 1
    probes := 0
    expansions := 0
    released := [] }

/-- The error kind of a completed failing operation, if any. -/
def errOf {V : Type} (r : Option (Except OAHashTableException Unit × HT V)) :
    Option OAHashTableException :=
  match r with
  | some (.error e, _) => some e
  | _ => none

/-! Basic lemmas about the auxiliary notions. -/

theorem getD_set_self {V : Type} {l : List (OAHTSlot V)} {c : Nat} {x : OAHTSlot V}
    (h : c < l.length) : (l.set c x).getD c default = x := by
  simp [List.getD_eq_getElem?_getD, List.getElem?_set_self h]

theorem getD_set_ne {V : Type} {l : List (OAHTSlot V)} {c j : Nat} {x : OAHTSlot V}
    (h : c ≠ j) : (l.set c x).getD j default = l.getD j default := by
  simp [List.getD_eq_getElem?_getD, List.getElem?_set_ne h]

theorem probe_lt {m orig stride i : Nat} (hm : 0 < m) : probe m orig stride i < m :=
  Nat.mod_lt _ hm

theorem probe_zero {m orig stride : Nat} (h : orig < m) : probe m orig stride 0 = orig := by
  simp [probe, Nat.mod_eq_of_lt h]

theorem probe_step {m orig stride i : Nat} :
    (probe m orig stride i + stride) % m = probe m orig stride (i + 1) := by
  unfold probe
  rw [Nat.mod_add_mod, Nat.mul_succ, ← Nat.add_assoc]

theorem probe_inj {m orig stride i j : Nat} (hcop : Nat.Coprime stride m)
    (hi : i < m) (hj : j < m)
    (h : probe m orig stride i = probe m orig stride j) : i = j := by
  have h1 : orig + stride * i ≡ orig + stride * j [MOD m] := by
    unfold probe at h
    unfold Nat.ModEq
    omega
  have h2 : stride * i ≡ stride * j [MOD m] := Nat.ModEq.add_left_cancel' orig h1
  have h3 : i ≡ j [MOD m] := Nat.ModEq.cancel_left_of_coprime (Nat.Coprime.symm hcop) h2
  have h4 := h3
  unfold Nat.ModEq at h4
  rw [Nat.mod_eq_of_lt hi, Nat.mod_eq_of_lt hj] at h4
  exact h4

theorem probe_cycle {m orig stride : Nat} (horig : orig < m) :
    probe m orig stride m = orig := by
  unfold probe
  rw [Nat.add_mul_mod_self_right, Nat.mod_eq_of_lt horig]

theorem probe_succ_eq_orig_iff {m orig stride i : Nat} (hcop : Nat.Coprime stride m)
    (horig : orig < m) (hi : i < m) :
    probe m orig stride (i + 1) = orig ↔ i + 1 = m := by
  constructor
  · intro h
    by_contra hne
    have hi1 : i + 1 < m := by omega
    have h0 : probe m orig stride (i + 1) = probe m orig stride 0 := by
      rw [h, probe_zero horig]
    have := probe_inj hcop hi1 (by omega) h0
    omega
  · intro h
    rw [h, probe_cycle horig]

theorem firstIdxAux_some_of (p : Nat → Bool) :
    ∀ fuel i j, i ≤ j → j < i + fuel → p j = true →
      (∀ l, i ≤ l → l < j → p l = false) → firstIdxAux p fuel i = some j := by
  intro fuel
  induction fuel with
  | zero => intro i j h1 h2 _ _; omega
  | succ n ih =>
    intro i j h1 h2 hj hmin
    unfold firstIdxAux
    by_cases hpi : p i = true
    · have hij : i = j := by
        by_contra hne
        have := hmin i (le_refl i) (by omega)
        rw [hpi] at this
        cases this
      rw [hij] at hpi ⊢
      simp [hpi]
    · have hij : i < j := by
        rcases Nat.lt_or_ge i j with h | h
        · exact h
        · have : i = j := by omega
          rw [this] at hpi; exact absurd hj hpi
      simp only [hpi]
      rw [if_neg (by simp [hpi])]
      exact ih (i + 1) j (by omega) (by omega) hj fun l hl1 hl2 => hmin l (by omega) hl2

theorem firstIdxAux_none_of (p : Nat → Bool) :
    ∀ fuel i, (∀ l, i ≤ l → l < i + fuel → p l = false) → firstIdxAux p fuel i = none := by
  intro fuel
  induction fuel with
  | zero => intro i _; rfl
  | succ n ih =>
    intro i h
    unfold firstIdxAux
    have hpi := h i (le_refl i) (by omega)
    rw [if_neg (by simp [hpi])]
    exact ih (i + 1) fun l hl1 hl2 => h l (by omega) (by omega)

theorem firstIdxAux_some_inv (p : Nat → Bool) :
    ∀ fuel i j, firstIdxAux p fuel i = some j →
      i ≤ j ∧ j < i + fuel ∧ p j = true ∧ ∀ l, i ≤ l → l < j → p l = false := by
  intro fuel
  induction fuel with
  | zero => intro i j h; cases h
  | succ n ih =>
    intro i j h
    unfold firstIdxAux at h
    by_cases hpi : p i = true
    · rw [if_pos hpi] at h
      cases h
      exact ⟨le_refl _, by omega, hpi, fun l h1 h2 => by omega⟩
    · rw [if_neg hpi] at h
      obtain ⟨h1, h2, h3, h4⟩ := ih (i + 1) j h
      refine ⟨by omega, by omega, h3, fun l hl1 hl2 => ?_⟩
      rcases Nat.lt_or_ge l (i + 1) with hc | hc
      · have : l = i := by omega
        rw [this]
        simpa using hpi
      · exact h4 l hc hl2

theorem firstIdxAux_none_inv (p : Nat → Bool) :
    ∀ fuel i, firstIdxAux p fuel i = none →
      ∀ l, i ≤ l → l < i + fuel → p l = false := by
  intro fuel
  induction fuel with
  | zero => intro i _ l h1 h2; omega
  | succ n ih =>
    intro i h l hl1 hl2
    unfold firstIdxAux at h
    by_cases hpi : p i = true
    · rw [if_pos hpi] at h; cases h
    · rw [if_neg hpi] at h
      rcases Nat.lt_or_ge l (i + 1) with hc | hc
      · have : l = i := by omega
        rw [this]
        simpa using hpi
      · exact ih (i + 1) h l hc (by omega)

theorem firstIdxBelow_some_inv {p : Nat → Bool} {m j : Nat} (h : firstIdxBelow p m = some j) :
    j < m ∧ p j = true ∧ ∀ l, l < j → p l = false := by
  obtain ⟨h1, h2, h3, h4⟩ := firstIdxAux_some_inv p m 0 j h
  exact ⟨by omega, h3, fun l hl => h4 l (by omega) hl⟩

theorem firstIdxBelow_none_inv {p : Nat → Bool} {m : Nat} (h : firstIdxBelow p m = none) :
    ∀ l, l < m → p l = false := by
  intro l hl
  exact firstIdxAux_none_inv p m 0 h l (by omega) (by omega)

/-! Characterisation of the find/remove probe walk (searchLoop). -/

theorem searchLoop_go_stop {V : Type} {table : List (OAHTSlot V)} {m stride orig : Nat}
    {k : CKey} (hcop : Nat.Coprime stride m) (horig : orig < m) :
    ∀ n i pc, i + n < m →
      (isMatchAt table m orig stride k (i + n) ∨ isEmptyAt table m orig stride (i + n)) →
      (∀ l, i ≤ l → l < i + n →
        ¬ isMatchAt table m orig stride k l ∧ ¬ isEmptyAt table m orig stride l) →
      searchLoop table m stride orig k (m - i) (probe m orig stride i) pc =
        ((if isMatchAt table m orig stride k (i + n) then some (probe m orig stride (i + n))
          else none), pc + n + 1) := by
  intro n
  induction n with
  | zero =>
    intro i pc hlt hstop _
    rw [show m - i = (m - i - 1) + 1 from by omega]
    simp only [searchLoop, Nat.add_zero] at hstop ⊢
    by_cases hM : isMatchAt table m orig stride k i
    · rw [if_pos ⟨hM.1, hM.2⟩, if_pos hM]
    · have hE : isEmptyAt table m orig stride i := by
        rcases hstop with h | h
        · exact absurd h hM
        · exact h
      rw [if_neg (by exact fun hc => hM ⟨hc.1, hc.2⟩), if_pos hE, if_neg hM]
  | succ n ih =>
    intro i pc hlt hstop hmin
    have hmi := hmin i (le_refl i) (by omega)
    rw [show m - i = (m - (i + 1)) + 1 from by omega]
    simp only [searchLoop]
    rw [if_neg (by exact fun hc => hmi.1 ⟨hc.1, hc.2⟩), if_neg hmi.2, probe_step,
      if_neg (by
        intro hc
        have := (probe_succ_eq_orig_iff hcop horig (by omega)).mp hc
        omega)]
    have := ih (i + 1) (pc + 1) (by omega)
      (by rw [show i + 1 + n = i + (n + 1) from by omega]; exact hstop)
      (fun l h1 h2 => hmin l (by omega) (by omega))
    rw [show i + 1 + n = i + (n + 1) from by omega] at this
    rw [this, show pc + 1 + n + 1 = pc + (n + 1) + 1 from by omega]

theorem searchLoop_go_none {V : Type} {table : List (OAHTSlot V)} {m stride orig : Nat}
    {k : CKey} (hcop : Nat.Coprime stride m) (horig : orig < m) :
    ∀ n i pc, i + n = m →
      (∀ l, i ≤ l → l < m →
        ¬ isMatchAt table m orig stride k l ∧ ¬ isEmptyAt table m orig stride l) →
      searchLoop table m stride orig k (m - i) (probe m orig stride i) pc = (none, pc + n) := by
  intro n
  induction n with
  | zero =>
    intro i pc hi _
    rw [show m - i = 0 from by omega]
    rfl
  | succ n ih =>
    intro i pc hi hall
    have hmi := hall i (le_refl i) (by omega)
    rw [show m - i = (m - (i + 1)) + 1 from by omega]
    simp only [searchLoop]
    rw [if_neg (by exact fun hc => hmi.1 ⟨hc.1, hc.2⟩), if_neg hmi.2, probe_step]
    rcases Nat.eq_zero_or_pos n with hn | hn
    · have hi1 : i + 1 = m := by omega
      rw [if_pos (by rw [hi1, probe_cycle horig]), show pc + (n + 1) = pc + 1 from by omega]
    · rw [if_neg (by
        intro hc
        have := (probe_succ_eq_orig_iff hcop horig (by omega)).mp hc
        omega)]
      have := ih (i + 1) (pc + 1) (by omega) (fun l h1 h2 => hall l (by omega) h2)
      rw [this, show pc + 1 + n = pc + (n + 1) from by omega]

theorem searchLoop_found {V : Type} {table : List (OAHTSlot V)} {m stride orig : Nat}
    {k : CKey} (hcop : Nat.Coprime stride m) (horig : orig < m) {j : Nat} (hj : j < m)
    (hMj : isMatchAt table m orig stride k j)
    (hmin : ∀ l, l < j → ¬ isMatchAt table m orig stride k l ∧ ¬ isEmptyAt table m orig stride l) :
    searchLoop table m stride orig k m orig 0 = (some (probe m orig stride j), j + 1) := by
  have := searchLoop_go_stop hcop horig j 0 0 (by omega) (by rw [Nat.zero_add]; exact .inl hMj)
    (fun l h1 h2 => hmin l (by omega))
  rw [Nat.zero_add] at this
  rw [Nat.sub_zero, probe_zero horig] at this
  rw [this, if_pos hMj]

theorem searchLoop_empty_stop {V : Type} {table : List (OAHTSlot V)} {m stride orig : Nat}
    {k : CKey} (hcop : Nat.Coprime stride m) (horig : orig < m) {j : Nat} (hj : j < m)
    (hEj : isEmptyAt table m orig stride j) (hMj : ¬ isMatchAt table m orig stride k j)
    (hmin : ∀ l, l < j → ¬ isMatchAt table m orig stride k l ∧ ¬ isEmptyAt table m orig stride l) :
    searchLoop table m stride orig k m orig 0 = (none, j + 1) := by
  have := searchLoop_go_stop hcop horig j 0 0 (by omega) (by rw [Nat.zero_add]; exact .inr hEj)
    (fun l h1 h2 => hmin l (by omega))
  rw [Nat.zero_add] at this
  rw [Nat.sub_zero, probe_zero horig] at this
  rw [this, if_neg hMj]

theorem searchLoop_exhaust {V : Type} {table : List (OAHTSlot V)} {m stride orig : Nat}
    {k : CKey} (hcop : Nat.Coprime stride m) (horig : orig < m)
    (hall : ∀ l, l < m →
      ¬ isMatchAt table m orig stride k l ∧ ¬ isEmptyAt table m orig stride l) :
    searchLoop table m stride orig k m orig 0 = (none, m) := by
  have := searchLoop_go_none hcop horig m 0 0 (by omega) (fun l h1 h2 => hall l h2)
  rw [Nat.zero_add] at this
  rw [Nat.sub_zero, probe_zero horig] at this
  rw [this]

/-! Characterisation of the linearProbeInsert probing loop. -/

theorem lpiLoop_go_withD {V : Type} (table : List (OAHTSlot V)) {m stride orig : Nat}
    (hcop : Nat.Coprime stride m) (horig : orig < m) :
    ∀ n i pc d, i + n < m → isEmptyAt table m orig stride (i + n) →
      (∀ l, i ≤ l → l < i + n → ¬ isEmptyAt table m orig stride l) →
      lpiLoop table m stride orig (m - i) (probe m orig stride i) pc (some d) =
        .placed d (pc + n + 1) := by
  intro n
  induction n with
  | zero =>
    intro i pc d hlt hE _
    rw [show m - i = (m - i - 1) + 1 from by omega]
    rw [Nat.add_zero] at hE
    simp only [lpiLoop, hE]
  | succ n ih =>
    intro i pc d hlt hE hmin
    have hi := hmin i (le_refl i) (by omega)
    rw [show m - i = (m - (i + 1)) + 1 from by omega]
    have hstep : ¬ probe m orig stride (i + 1) = orig := by
      intro hc
      have := (probe_succ_eq_orig_iff hcop horig (by omega)).mp hc
      omega
    have hrec := ih (i + 1) (pc + 1) d (by omega)
      (by rw [show i + 1 + n = i + (n + 1) from by omega]; exact hE)
      (fun l h1 h2 => hmin l (by omega) (by omega))
    rw [show pc + 1 + n + 1 = pc + (n + 1) + 1 from by omega] at hrec
    cases hstate : (stepSlot table m orig stride i).State with
    | OCCUPIED =>
      simp only [lpiLoop, hstate, probe_step, if_neg hstep]
      exact hrec
    | UNOCCUPIED => exact absurd hstate hi
    | DELETED =>
      simp only [lpiLoop, hstate, probe_step, if_neg hstep]
      exact hrec

theorem lpiLoop_go_withD_cycle {V : Type} {table : List (OAHTSlot V)} {m stride orig : Nat}
    (hcop : Nat.Coprime stride m) (horig : orig < m) :
    ∀ n i pc d, i + n = m →
      (∀ l, i ≤ l → l < m → ¬ isEmptyAt table m orig stride l) →
      lpiLoop table m stride orig (m - i) (probe m orig stride i) pc (some d) =
        .cycle (some d) (pc + n) := by
  intro n
  induction n with
  | zero =>
    intro i pc d hi _
    rw [show m - i = 0 from by omega]
    rfl
  | succ n ih =>
    intro i pc d hi hall
    have hmi := hall i (le_refl i) (by omega)
    rw [show m - i = (m - (i + 1)) + 1 from by omega]
    rcases Nat.eq_zero_or_pos n with hn | hn
    · have hi1 : i + 1 = m := by omega
      have hstep : probe m orig stride (i + 1) = orig := by rw [hi1, probe_cycle horig]
      cases hstate : (stepSlot table m orig stride i).State with
      | OCCUPIED =>
        simp only [lpiLoop, hstate, probe_step, if_pos hstep]
        rw [show pc + (n + 1) = pc + 1 from by omega]
      | UNOCCUPIED => exact absurd hstate hmi
      | DELETED =>
        simp only [lpiLoop, hstate, probe_step, if_pos hstep]
        rw [show pc + (n + 1) = pc + 1 from by omega]
    · have hstep : ¬ probe m orig stride (i + 1) = orig := by
        intro hc
        have := (probe_succ_eq_orig_iff hcop horig (by omega)).mp hc
        omega
      have hrec := ih (i + 1) (pc + 1) d (by omega) (fun l h1 h2 => hall l (by omega) h2)
      rw [show pc + 1 + n = pc + (n + 1) from by omega] at hrec
      cases hstate : (stepSlot table m orig stride i).State with
      | OCCUPIED =>
        simp only [lpiLoop, hstate, probe_step, if_neg hstep]
        exact hrec
      | UNOCCUPIED => exact absurd hstate hmi
      | DELETED =>
        simp only [lpiLoop, hstate, probe_step, if_neg hstep]
        exact hrec

theorem lpiLoop_go_noD_toEmpty {V : Type} {table : List (OAHTSlot V)} {m stride orig : Nat}
    (hcop : Nat.Coprime stride m) (horig : orig < m) :
    ∀ n i pc, i + n < m → isEmptyAt table m orig stride (i + n) →
      (∀ l, i ≤ l → l < i + n →
        ¬ isEmptyAt table m orig stride l ∧ ¬ isDeletedAt table m orig stride l) →
      lpiLoop table m stride orig (m - i) (probe m orig stride i) pc none =
        .placed (probe m orig stride (i + n)) (pc + n + 1) := by
  intro n
  induction n with
  | zero =>
    intro i pc hlt hE _
    rw [show m - i = (m - i - 1) + 1 from by omega]
    simp only [Nat.add_zero] at hE ⊢
    simp only [lpiLoop, hE]
  | succ n ih =>
    intro i pc hlt hE hmin
    have hi := hmin i (le_refl i) (by omega)
    rw [show m - i = (m - (i + 1)) + 1 from by omega]
    have hstep : ¬ probe m orig stride (i + 1) = orig := by
      intro hc
      have := (probe_succ_eq_orig_iff hcop horig (by omega)).mp hc
      omega
    have hrec := ih (i + 1) (pc + 1) (by omega)
      (by rw [show i + 1 + n = i + (n + 1) from by omega]; exact hE)
      (fun l h1 h2 => hmin l (by omega) (by omega))
    rw [show pc + 1 + n + 1 = pc + (n + 1) + 1 from by omega,
      show i + 1 + n = i + (n + 1) from by omega] at hrec
    cases hstate : (stepSlot table m orig stride i).State with
    | OCCUPIED =>
      simp only [lpiLoop, hstate, probe_step, if_neg hstep]
      exact hrec
    | UNOCCUPIED => exact absurd hstate hi.1
    | DELETED => exact absurd hstate hi.2

theorem lpiLoop_go_noD_cycle {V : Type} {table : List (OAHTSlot V)} {m stride orig : Nat}
    (hcop : Nat.Coprime stride m) (horig : orig < m) :
    ∀ n i pc, i + n = m →
      (∀ l, i ≤ l → l < m →
        ¬ isEmptyAt table m orig stride l ∧ ¬ isDeletedAt table m orig stride l) →
      lpiLoop table m stride orig (m - i) (probe m orig stride i) pc none =
        .cycle none (pc + n) := by
  intro n
  induction n with
  | zero =>
    intro i pc hi _
    rw [show m - i = 0 from by omega]
    rfl
  | succ n ih =>
    intro i pc hi hall
    have hmi := hall i (le_refl i) (by omega)
    rw [show m - i = (m - (i + 1)) + 1 from by omega]
    cases hstate : (stepSlot table m orig stride i).State with
    | UNOCCUPIED => exact absurd hstate hmi.1
    | DELETED => exact absurd hstate hmi.2
    | OCCUPIED =>
      rcases Nat.eq_zero_or_pos n with hn | hn
      · have hi1 : i + 1 = m := by omega
        have hstep : probe m orig stride (i + 1) = orig := by rw [hi1, probe_cycle horig]
        simp only [lpiLoop, hstate, probe_step, if_pos hstep]
        rw [show pc + (n + 1) = pc + 1 from by omega]
      · have hstep : ¬ probe m orig stride (i + 1) = orig := by
          intro hc
          have := (probe_succ_eq_orig_iff hcop horig (by omega)).mp hc
          omega
        have hrec := ih (i + 1) (pc + 1) (by omega) (fun l h1 h2 => hall l (by omega) h2)
        rw [show pc + 1 + n = pc + (n + 1) from by omega] at hrec
        simp only [lpiLoop, hstate, probe_step, if_neg hstep]
        exact hrec

theorem lpiLoop_go_toD {V : Type} {table : List (OAHTSlot V)} {m stride orig : Nat}
    (hcop : Nat.Coprime stride m) (horig : orig < m) :
    ∀ n i pc, i + n < m → isDeletedAt table m orig stride (i + n) →
      (∀ l, i ≤ l → l < i + n →
        ¬ isEmptyAt table m orig stride l ∧ ¬ isDeletedAt table m orig stride l) →
      lpiLoop table m stride orig (m - i) (probe m orig stride i) pc none =
        lpiLoop table m stride orig (m - (i + n + 1)) (probe m orig stride (i + n + 1))
          (pc + n + 1) (some (probe m orig stride (i + n))) := by
  intro n
  induction n with
  | zero =>
    intro i pc hlt hD _
    rw [show m - i = (m - i - 1) + 1 from by omega]
    simp only [Nat.add_zero] at hD ⊢
    by_cases hstep : probe m orig stride (i + 1) = orig
    · have hi1 : i + 1 = m := (probe_succ_eq_orig_iff hcop horig (by omega)).mp hstep
      simp only [lpiLoop, hD, probe_step, if_pos hstep]
      rw [show m - (i + 1) = 0 from by omega]
      rfl
    · simp only [lpiLoop, hD, probe_step, if_neg hstep]
      rw [show m - i - 1 = m - (i + 1) from by omega]
  | succ n ih =>
    intro i pc hlt hD hmin
    have hi := hmin i (le_refl i) (by omega)
    rw [show m - i = (m - (i + 1)) + 1 from by omega]
    have hstep : ¬ probe m orig stride (i + 1) = orig := by
      intro hc
      have := (probe_succ_eq_orig_iff hcop horig (by omega)).mp hc
      omega
    have hrec := ih (i + 1) (pc + 1) (by omega)
      (by rw [show i + 1 + n = i + (n + 1) from by omega]; exact hD)
      (fun l h1 h2 => hmin l (by omega) (by omega))
    rw [show pc + 1 + n + 1 = pc + (n + 1) + 1 from by omega,
      show i + 1 + n = i + (n + 1) from by omega] at hrec
    cases hstate : (stepSlot table m orig stride i).State with
    | OCCUPIED =>
      simp only [lpiLoop, hstate, probe_step, if_neg hstep]
      exact hrec
    | UNOCCUPIED => exact absurd hstate hi.1
    | DELETED => exact absurd hstate hi.2

/-- The full characterisation of linearProbeInsert against the insertion
choice written from the spec's words (lpiSpecChoice): the two agree on
every table, for every in-range hash and every stride coprime to the
table size. -/
theorem linearProbeInsert_eq_spec {V : Type} (cfg : OAHTConfig V) (s : HT V) (Key : CKey)
    (Data : Option V)
    (horig : cfg.PrimaryHashFunc Key s.tableSize < s.tableSize)
    (hcop : Nat.Coprime (strideOf cfg Key s.tableSize) s.tableSize) :
    linearProbeInsert cfg s Key Data =
      match lpiSpecChoice s.table s.tableSize (cfg.PrimaryHashFunc Key s.tableSize)
          (strideOf cfg Key s.tableSize) with
      | some (c, pc) =>
        (.ok (), { s with
          table := s.table.set c ⟨.OCCUPIED, truncKey cfg Key, Data⟩
          count := s.count + 1
          probes := s.probes + pc })
      | none => (.error .E_NO_MEMORY, { s with probes := s.probes + s.tableSize }) := by
  have hm : 0 < s.tableSize := by omega
  unfold linearProbeInsert lpiSpecChoice
  dsimp only
  rcases hFE : (firstIdxBelow
      (fun i => decide (isEmptyAt s.table s.tableSize (cfg.PrimaryHashFunc Key s.tableSize)
        (strideOf cfg Key s.tableSize) i)) s.tableSize) with _ | j
  all_goals rcases hFD : (firstIdxBelow
      (fun i => decide (isDeletedAt s.table s.tableSize (cfg.PrimaryHashFunc Key s.tableSize)
        (strideOf cfg Key s.tableSize) i)) s.tableSize) with _ | d
  · -- no Empty, no Deleted anywhere on the cycle: table-full error
    have hEall := firstIdxBelow_none_inv hFE
    have hDall := firstIdxBelow_none_inv hFD
    have h := lpiLoop_go_noD_cycle hcop horig s.tableSize 0 0 (by omega)
      (fun l h1 h2 => ⟨of_decide_eq_false (hEall l h2), of_decide_eq_false (hDall l h2)⟩)
    simp only [Nat.zero_add, Nat.sub_zero, probe_zero horig] at h
    rw [h]
  · -- no Empty, first Deleted at step d: full cycle reuses the tombstone
    have hEall := firstIdxBelow_none_inv hFE
    obtain ⟨hdm, hdD', hdmin⟩ := firstIdxBelow_some_inv hFD
    have hdD := of_decide_eq_true hdD'
    have h1 := lpiLoop_go_toD hcop horig d 0 0 (by omega) (by rw [Nat.zero_add]; exact hdD)
      (fun l h1 h2 => ⟨of_decide_eq_false (hEall l (by omega)),
        of_decide_eq_false (hdmin l (by omega))⟩)
    simp only [Nat.zero_add, Nat.sub_zero, probe_zero horig] at h1
    have h2 := lpiLoop_go_withD_cycle hcop horig (s.tableSize - (d + 1)) (d + 1) (d + 1)
      (probe s.tableSize (cfg.PrimaryHashFunc Key s.tableSize) (strideOf cfg Key s.tableSize) d)
      (by omega)
      (fun l hl1 hl2 => of_decide_eq_false (hEall l hl2))
    rw [show d + 1 + (s.tableSize - (d + 1)) = s.tableSize from by omega] at h2
    rw [h1, h2]
  · -- first Empty at step j, no Deleted: insert into the Empty slot
    obtain ⟨hjm, hjE', hjmin⟩ := firstIdxBelow_some_inv hFE
    have hjE := of_decide_eq_true hjE'
    have hDall := firstIdxBelow_none_inv hFD
    have h := lpiLoop_go_noD_toEmpty hcop horig j 0 0 (by omega)
      (by rw [Nat.zero_add]; exact hjE)
      (fun l h1 h2 => ⟨of_decide_eq_false (hjmin l (by omega)),
        of_decide_eq_false (hDall l (by omega))⟩)
    simp only [Nat.zero_add, Nat.sub_zero, probe_zero horig] at h
    rw [h]
  · -- first Empty at step j, first Deleted at step d
    obtain ⟨hjm, hjE', hjmin⟩ := firstIdxBelow_some_inv hFE
    have hjE := of_decide_eq_true hjE'
    obtain ⟨hdm, hdD', hdmin⟩ := firstIdxBelow_some_inv hFD
    have hdD := of_decide_eq_true hdD'
    have hne : j ≠ d := by
      intro hc
      rw [← hc] at hdD
      unfold isEmptyAt at hjE
      unfold isDeletedAt at hdD
      rw [hjE] at hdD
      cases hdD
    by_cases hdj : d < j
    · -- tombstone seen before the Empty slot: reuse it
      have h1 := lpiLoop_go_toD hcop horig d 0 0 (by omega) (by rw [Nat.zero_add]; exact hdD)
        (fun l h1 h2 => ⟨of_decide_eq_false (hjmin l (by omega)),
          of_decide_eq_false (hdmin l (by omega))⟩)
      simp only [Nat.zero_add, Nat.sub_zero, probe_zero horig] at h1
      have h2 := lpiLoop_go_withD s.table hcop horig (j - (d + 1)) (d + 1) (d + 1)
        (probe s.tableSize (cfg.PrimaryHashFunc Key s.tableSize) (strideOf cfg Key s.tableSize) d)
        (by omega)
        (by rw [show d + 1 + (j - (d + 1)) = j from by omega]; exact hjE)
        (fun l hl1 hl2 => of_decide_eq_false (hjmin l (by omega)))
      rw [show d + 1 + (j - (d + 1)) + 1 = j + 1 from by omega] at h2
      rw [h1, h2]
      simp only [if_pos hdj]
    · -- the Empty slot comes first: insert there
      have hjd : j < d := by omega
      have h := lpiLoop_go_noD_toEmpty hcop horig j 0 0 (by omega)
        (by rw [Nat.zero_add]; exact hjE)
        (fun l h1 h2 => ⟨of_decide_eq_false (hjmin l (by omega)),
          of_decide_eq_false (hdmin l (by omega))⟩)
      simp only [Nat.zero_add, Nat.sub_zero, probe_zero horig] at h
      rw [h]
      simp only [if_neg hdj]

/-! Structural facts about linearProbeInsert and the recursive insert. -/

theorem truncKey_idem {V : Type} (cfg : OAHTConfig V) (kk : CKey) :
    truncKey cfg (truncKey cfg kk) = truncKey cfg kk := by
  simp [truncKey, List.take_take]

theorem getD_replicate {V : Type} (n i : Nat) :
    ((List.replicate n (default : OAHTSlot V)).getD i default) = default := by
  rcases Nat.lt_or_ge i n with h | h
  · simp [List.getD_eq_getElem?_getD, List.getElem?_replicate, h]
  · simp [List.getD_eq_getElem?_getD, List.getElem?_replicate, Nat.not_lt.mpr h]

theorem gcpAux_ge : ∀ fuel cur, cur ≤ gcpAux fuel cur := by
  intro fuel
  induction fuel with
  | zero => intro cur; exact le_refl _
  | succ n ih =>
    intro cur
    unfold gcpAux
    by_cases h : isPrimeB cur = true
    · rw [if_pos h]
    · rw [if_neg h]
      exact le_trans (by omega) (ih (cur + 1))

theorem GetClosestPrime_ge_two (n : Nat) : 2 ≤ GetClosestPrime n :=
  le_trans (by omega) (gcpAux_ge (2 * n + 4) (max n 2))

/-- Every run of linearProbeInsert either succeeds, writing the truncated
key and the data into one chosen slot and bumping count, or fails with
E_NO_MEMORY leaving everything but probes unchanged. -/
theorem linearProbeInsert_shape {V : Type} (cfg : OAHTConfig V) (s : HT V) (K : CKey)
    (D : Option V) :
    (∃ c pc, linearProbeInsert cfg s K D =
        (.ok (), { s with
          table := s.table.set c ⟨.OCCUPIED, truncKey cfg K, D⟩
          count := s.count + 1
          probes := s.probes + pc })) ∨
    (∃ pc, linearProbeInsert cfg s K D =
        (.error .E_NO_MEMORY, { s with probes := s.probes + pc })) := by
  unfold linearProbeInsert
  dsimp only
  rcases lpiLoop s.table s.tableSize (strideOf cfg K s.tableSize)
      (cfg.PrimaryHashFunc K s.tableSize) s.tableSize
      (cfg.PrimaryHashFunc K s.tableSize) 0 none with ⟨c, pc⟩ | ⟨dIdx, pc⟩
  · exact .inl ⟨c, pc, rfl⟩
  · rcases dIdx with _ | d
    · exact .inr ⟨pc, rfl⟩
    · exact .inl ⟨d, pc, rfl⟩

theorem lpi_released {V : Type} (cfg : OAHTConfig V) (s : HT V) (K : CKey) (D : Option V) :
    ((linearProbeInsert cfg s K D).2).released = s.released := by
  rcases linearProbeInsert_shape cfg s K D with ⟨c, pc, he⟩ | ⟨pc, he⟩ <;> rw [he]

theorem lpi_expansions {V : Type} (cfg : OAHTConfig V) (s : HT V) (K : CKey) (D : Option V) :
    ((linearProbeInsert cfg s K D).2).expansions = s.expansions := by
  rcases linearProbeInsert_shape cfg s K D with ⟨c, pc, he⟩ | ⟨pc, he⟩ <;> rw [he]

theorem lpi_length {V : Type} (cfg : OAHTConfig V) (s : HT V) (K : CKey) (D : Option V) :
    ((linearProbeInsert cfg s K D).2).table.length = s.table.length := by
  rcases linearProbeInsert_shape cfg s K D with ⟨c, pc, he⟩ | ⟨pc, he⟩ <;>
    simp [he, List.length_set]

theorem lpi_ok_count {V : Type} {cfg : OAHTConfig V} {s : HT V} {K : CKey} {D : Option V}
    (h : (linearProbeInsert cfg s K D).1 = .ok ()) :
    ((linearProbeInsert cfg s K D).2).count = s.count + 1 := by
  rcases linearProbeInsert_shape cfg s K D with ⟨c, pc, he⟩ | ⟨pc, he⟩
  · rw [he]
  · rw [he] at h
    cases h

theorem lpi_error_frame {V : Type} {cfg : OAHTConfig V} {s : HT V} {K : CKey} {D : Option V}
    {e : OAHashTableException} (h : (linearProbeInsert cfg s K D).1 = .error e) :
    e = .E_NO_MEMORY ∧
      ((linearProbeInsert cfg s K D).2).table = s.table ∧
      ((linearProbeInsert cfg s K D).2).count = s.count ∧
      ((linearProbeInsert cfg s K D).2).expansions = s.expansions ∧
      ((linearProbeInsert cfg s K D).2).released = s.released := by
  rcases linearProbeInsert_shape cfg s K D with ⟨c, pc, he⟩ | ⟨pc, he⟩
  · rw [he] at h; cases h
  · rw [he] at h ⊢
    cases h
    exact ⟨rfl, rfl, rfl, rfl, rfl⟩

theorem lpi_preserves_keyPred {V : Type} {cfg : OAHTConfig V} {s : HT V} {K : CKey}
    {D : Option V} {P : CKey → Prop}
    (hs : ∀ i, (s.table.getD i default).State = .OCCUPIED →
      P (s.table.getD i default).Key)
    (hK : P (truncKey cfg K)) :
    ∀ i, (((linearProbeInsert cfg s K D).2).table.getD i default).State = .OCCUPIED →
      P (((linearProbeInsert cfg s K D).2).table.getD i default).Key := by
  rcases linearProbeInsert_shape cfg s K D with ⟨c, pc, he⟩ | ⟨pc, he⟩ <;> rw [he] <;> intro i hocc
  · dsimp at hocc ⊢
    by_cases hci : c = i
    · rcases Nat.lt_or_ge c s.table.length with hlen | hlen
      · rw [hci] at hlen
        rw [hci, getD_set_self hlen] at hocc ⊢
        exact hK
      · rw [List.set_eq_of_length_le (by omega)] at hocc ⊢
        exact hs i hocc
    · rw [getD_set_ne hci] at hocc ⊢
      exact hs i hocc
  · exact hs i hocc

/-- Transfer of a reflexive transitive relation along the rehash loop. -/
theorem rehashGo_rel {V : Type} (P : HT V → HT V → Prop)
    (htrans : ∀ {a b c : HT V}, P a b → P b c → P a c) (hrefl : ∀ a, P a a)
    {ins : HT V → Option CKey → Option V → Option (Except OAHashTableException Unit × HT V)}
    (hins : ∀ s key d r s2, ins s key d = some (r, s2) → P s s2) :
    ∀ (l : List (OAHTSlot V)) s r s2, rehashGo ins s l = some (r, s2) → P s s2 := by
  intro l
  induction l with
  | nil =>
    intro s r s2 h
    unfold rehashGo at h
    rw [Option.some_inj] at h
    rw [← ((Prod.mk.injEq _ _ _ _).mp h).2]
    exact hrefl s
  | cons slot rest ih =>
    intro s r s2 h
    unfold rehashGo at h
    by_cases hst : slot.State = .OCCUPIED
    · rw [if_pos hst] at h
      rcases hins0 : ins s (some slot.Key) slot.data with _ | ⟨r1, s3⟩
      · rw [hins0] at h; cases h
      · rw [hins0] at h
        rcases r1 with e | u
        · simp only [Option.some_inj] at h
          rw [← ((Prod.mk.injEq _ _ _ _).mp h).2]
          exact hins _ _ _ _ _ hins0
        · exact htrans (hins _ _ _ _ _ hins0) (ih s3 r s2 h)
    · rw [if_neg hst] at h
      exact ih s r s2 h

/-- Errors surfacing from the rehash loop come from its inserts. -/
theorem rehashGo_err {V : Type}
    {ins : HT V → Option CKey → Option V → Option (Except OAHashTableException Unit × HT V)}
    (hins : ∀ s key d e s2, ins s key d = some (.error e, s2) → e = .E_NO_MEMORY) :
    ∀ (l : List (OAHTSlot V)) s e s2, rehashGo ins s l = some (.error e, s2) →
      e = .E_NO_MEMORY := by
  intro l
  induction l with
  | nil =>
    intro s e s2 h
    unfold rehashGo at h
    rw [Option.some_inj] at h
    cases ((Prod.mk.injEq _ _ _ _).mp h).1
  | cons slot rest ih =>
    intro s e s2 h
    unfold rehashGo at h
    by_cases hst : slot.State = .OCCUPIED
    · rw [if_pos hst] at h
      rcases hins0 : ins s (some slot.Key) slot.data with _ | ⟨r1, s3⟩
      · rw [hins0] at h; cases h
      · rw [hins0] at h
        rcases r1 with e1 | u
        · simp only [Option.some_inj] at h
          have he1 : Except.error (ε := OAHashTableException) (α := Unit) e1 = .error e :=
            ((Prod.mk.injEq _ _ _ _).mp h).1
          cases he1
          exact hins _ _ _ _ _ hins0
        · exact ih s3 e s2 h
    · rw [if_neg hst] at h
      exact ih s e s2 h

theorem insertF_released {V : Type} :
    ∀ fuel (cfg : OAHTConfig V) s key d r s2,
      insertF fuel cfg s key d = some (r, s2) → s2.released = s.released := by
  intro fuel
  induction fuel with
  | zero => intro _ _ _ _ _ _ h; cases h
  | succ fuel ih =>
    intro cfg s key d r s2 h
    rcases key with _ | k
    · unfold insertF at h
      dsimp only at h
      rw [Option.some_inj] at h
      rw [← ((Prod.mk.injEq _ _ _ _).mp h).2]
    · unfold insertF at h
      dsimp only at h
      by_cases hcr : CheckResizeRequired cfg s = true
      · rw [if_pos hcr] at h
        rcases hrg : resizeGo (fun s3 k3 d3 => insertF fuel cfg s3 k3 d3) s
            (requestedGrowSize cfg s) with _ | ⟨r1, s3⟩
        · rw [hrg] at h; cases h
        · have hs3 : s3.released = s.released := by
            unfold resizeGo at hrg
            have := rehashGo_rel (fun a b => b.released = a.released)
              (fun hab hbc => hbc.trans hab) (fun a => rfl)
              (fun s4 key4 d4 r4 s5 h4 => ih cfg s4 key4 d4 r4 s5 h4)
              s.table _ r1 s3 hrg
            simpa using this
          rw [hrg] at h
          rcases r1 with e | u
          · simp only [Option.some_inj] at h
            rw [← ((Prod.mk.injEq _ _ _ _).mp h).2]
            exact hs3
          · rw [Option.some_inj] at h
            have h2 : s2 = (linearProbeInsert cfg s3 k d).2 := by rw [h]
            rw [h2, lpi_released]
            exact hs3
      · rw [if_neg (by simpa using hcr)] at h
        rw [Option.some_inj] at h
        have h2 : s2 = (linearProbeInsert cfg s k d).2 := by rw [h]
        rw [h2, lpi_released]

theorem insertF_expansions_mono {V : Type} :
    ∀ fuel (cfg : OAHTConfig V) s key d r s2,
      insertF fuel cfg s key d = some (r, s2) → s.expansions ≤ s2.expansions := by
  intro fuel
  induction fuel with
  | zero => intro _ _ _ _ _ _ h; cases h
  | succ fuel ih =>
    intro cfg s key d r s2 h
    rcases key with _ | k
    · unfold insertF at h
      dsimp only at h
      rw [Option.some_inj] at h
      rw [← ((Prod.mk.injEq _ _ _ _).mp h).2]
    · unfold insertF at h
      dsimp only at h
      by_cases hcr : CheckResizeRequired cfg s = true
      · rw [if_pos hcr] at h
        rcases hrg : resizeGo (fun s3 k3 d3 => insertF fuel cfg s3 k3 d3) s
            (requestedGrowSize cfg s) with _ | ⟨r1, s3⟩
        · rw [hrg] at h; cases h
        · have hs3 : s.expansions + 1 ≤ s3.expansions := by
            unfold resizeGo at hrg
            have := rehashGo_rel (fun a b => a.expansions ≤ b.expansions)
              (fun hab hbc => le_trans hab hbc) (fun a => le_refl _)
              (fun s4 key4 d4 r4 s5 h4 => ih cfg s4 key4 d4 r4 s5 h4)
              s.table _ r1 s3 hrg
            simpa using this
          rw [hrg] at h
          rcases r1 with e | u
          · simp only [Option.some_inj] at h
            rw [← ((Prod.mk.injEq _ _ _ _).mp h).2]
            omega
          · rw [Option.some_inj] at h
            have h2 : s2 = (linearProbeInsert cfg s3 k d).2 := by rw [h]
            rw [h2, lpi_expansions]
            omega
      · rw [if_neg (by simpa using hcr)] at h
        rw [Option.some_inj] at h
        have h2 : s2 = (linearProbeInsert cfg s k d).2 := by rw [h]
        rw [h2, lpi_expansions]

theorem insertF_error_kind {V : Type} :
    ∀ fuel (cfg : OAHTConfig V) s key d e s2,
      insertF fuel cfg s key d = some (.error e, s2) → e = .E_NO_MEMORY := by
  intro fuel
  induction fuel with
  | zero => intro _ _ _ _ _ _ h; cases h
  | succ fuel ih =>
    intro cfg s key d e s2 h
    rcases key with _ | k
    · unfold insertF at h
      dsimp only at h
      rw [Option.some_inj] at h
      have := ((Prod.mk.injEq _ _ _ _).mp h).1
      cases this
      rfl
    · unfold insertF at h
      dsimp only at h
      by_cases hcr : CheckResizeRequired cfg s = true
      · rw [if_pos hcr] at h
        rcases hrg : resizeGo (fun s3 k3 d3 => insertF fuel cfg s3 k3 d3) s
            (requestedGrowSize cfg s) with _ | ⟨r1, s3⟩
        · rw [hrg] at h; cases h
        · rw [hrg] at h
          rcases r1 with e1 | u
          · simp only [Option.some_inj] at h
            have he1 : e1 = e := by
              have hp := ((Prod.mk.injEq _ _ _ _).mp h).1
              injection hp
            unfold resizeGo at hrg
            rw [← he1]
            exact rehashGo_err (fun s4 k4 d4 e4 s5 h4 => ih cfg s4 k4 d4 e4 s5 h4)
              s.table _ e1 s3 hrg
          · rw [Option.some_inj] at h
            have h1 : (linearProbeInsert cfg s3 k d).1 = .error e := by rw [h]
            exact (lpi_error_frame h1).1
      · rw [if_neg (by simpa using hcr)] at h
        rw [Option.some_inj] at h
        have h1 : (linearProbeInsert cfg s k d).1 = .error e := by rw [h]
        exact (lpi_error_frame h1).1

theorem insertF_size {V : Type} :
    ∀ fuel (cfg : OAHTConfig V) s key d r s2,
      insertF fuel cfg s key d = some (r, s2) →
      s2.table.length = s.table.length ∨ 2 ≤ s2.table.length := by
  intro fuel
  induction fuel with
  | zero => intro _ _ _ _ _ _ h; cases h
  | succ fuel ih =>
    intro cfg s key d r s2 h
    rcases key with _ | k
    · unfold insertF at h
      dsimp only at h
      rw [Option.some_inj] at h
      rw [← ((Prod.mk.injEq _ _ _ _).mp h).2]
      exact .inl rfl
    · unfold insertF at h
      dsimp only at h
      by_cases hcr : CheckResizeRequired cfg s = true
      · rw [if_pos hcr] at h
        rcases hrg : resizeGo (fun s3 k3 d3 => insertF fuel cfg s3 k3 d3) s
            (requestedGrowSize cfg s) with _ | ⟨r1, s3⟩
        · rw [hrg] at h; cases h
        · have hs3 : 2 ≤ s3.table.length := by
            unfold resizeGo at hrg
            have := rehashGo_rel
              (fun a b => b.table.length = a.table.length ∨ 2 ≤ b.table.length)
              (fun hab hbc => by
                rcases hab with hab | hab <;> rcases hbc with hbc | hbc
                · exact .inl (hbc.trans hab)
                · exact .inr hbc
                · exact .inr (by omega)
                · exact .inr hbc)
              (fun a => .inl rfl)
              (fun s4 key4 d4 r4 s5 h4 => ih cfg s4 key4 d4 r4 s5 h4)
              s.table _ r1 s3 hrg
            rcases this with hthis | hthis
            · rw [hthis]
              simpa using GetClosestPrime_ge_two (requestedGrowSize cfg s)
            · exact hthis
          rw [hrg] at h
          rcases r1 with e | u
          · simp only [Option.some_inj] at h
            rw [← ((Prod.mk.injEq _ _ _ _).mp h).2]
            exact .inr hs3
          · rw [Option.some_inj] at h
            have h2 : s2 = (linearProbeInsert cfg s3 k d).2 := by rw [h]
            rw [h2, lpi_length]
            exact .inr hs3
      · rw [if_neg (by simpa using hcr)] at h
        rw [Option.some_inj] at h
        have h2 : s2 = (linearProbeInsert cfg s k d).2 := by rw [h]
        rw [h2, lpi_length]
        exact .inl rfl

theorem mem_imp_getD {V : Type} {l : List (OAHTSlot V)} {slot : OAHTSlot V}
    (hmem : slot ∈ l) : ∃ i, i < l.length ∧ l.getD i default = slot := by
  obtain ⟨i, hi, hslot⟩ := List.getElem_of_mem hmem
  exact ⟨i, hi, by simp [List.getD_eq_getElem?_getD, List.getElem?_eq_getElem hi, hslot]⟩

/-- The rehash loop preserves a key predicate closed under truncation,
provided every reinserted key's truncation satisfies it. -/
theorem rehashGo_preserves_keyPred {V : Type} {cfg : OAHTConfig V} {P : CKey → Prop}
    {ins : HT V → Option CKey → Option V → Option (Except OAHashTableException Unit × HT V)}
    (hPtr : ∀ x, P x → P (truncKey cfg x))
    (hins : ∀ s key d r s2, ins s key d = some (r, s2) →
      (∀ i, (s.table.getD i default).State = .OCCUPIED →
        P (s.table.getD i default).Key) →
      (∀ kk, key = some kk → P (truncKey cfg kk)) →
      ∀ i, (s2.table.getD i default).State = .OCCUPIED →
        P (s2.table.getD i default).Key) :
    ∀ (l : List (OAHTSlot V)),
      (∀ slot ∈ l, slot.State = .OCCUPIED → P slot.Key) →
      ∀ s r s2, rehashGo ins s l = some (r, s2) →
        (∀ i, (s.table.getD i default).State = .OCCUPIED →
          P (s.table.getD i default).Key) →
        ∀ i, (s2.table.getD i default).State = .OCCUPIED →
          P (s2.table.getD i default).Key := by
  intro l
  induction l with
  | nil =>
    intro _ s r s2 h hsafe
    unfold rehashGo at h
    rw [Option.some_inj] at h
    rw [← ((Prod.mk.injEq _ _ _ _).mp h).2]
    exact hsafe
  | cons slot rest ih =>
    intro hl s r s2 h hsafe
    unfold rehashGo at h
    by_cases hst : slot.State = .OCCUPIED
    · rw [if_pos hst] at h
      rcases hins0 : ins s (some slot.Key) slot.data with _ | ⟨r1, s3⟩
      · rw [hins0] at h; cases h
      · rw [hins0] at h
        have hs3 := hins _ _ _ _ _ hins0 hsafe
          (fun kk hkk => by
            rw [Option.some_inj] at hkk
            rw [← hkk]
            exact hPtr _ (hl slot (by simp) hst))
        rcases r1 with e | u
        · simp only [Option.some_inj] at h
          rw [← ((Prod.mk.injEq _ _ _ _).mp h).2]
          exact hs3
        · exact ih (fun sl hm ho => hl sl (by simp [hm]) ho) s3 r s2 h hs3
    · rw [if_neg hst] at h
      exact ih (fun sl hm ho => hl sl (by simp [hm]) ho) s r s2 h hsafe

/-- The recursive insert preserves a key predicate closed under
truncation when the inserted key's truncation satisfies it; growth inside
the insert is covered because rehashing reinserts only stored keys. -/
theorem insertF_preserves_keyPred {V : Type} (P : CKey → Prop) :
    ∀ fuel (cfg : OAHTConfig V) s key d r s2,
      (∀ x, P x → P (truncKey cfg x)) →
      insertF fuel cfg s key d = some (r, s2) →
      (∀ i, (s.table.getD i default).State = .OCCUPIED →
        P (s.table.getD i default).Key) →
      (∀ kk, key = some kk → P (truncKey cfg kk)) →
      ∀ i, (s2.table.getD i default).State = .OCCUPIED →
        P (s2.table.getD i default).Key := by
  intro fuel
  induction fuel with
  | zero => intro _ _ _ _ _ _ _ h; cases h
  | succ fuel ih =>
    intro cfg s key d r s2 hPtr h hsafe hkey
    rcases key with _ | kk
    · unfold insertF at h
      dsimp only at h
      rw [Option.some_inj] at h
      rw [← ((Prod.mk.injEq _ _ _ _).mp h).2]
      exact hsafe
    · have hkk : P (truncKey cfg kk) := hkey kk rfl
      unfold insertF at h
      dsimp only at h
      by_cases hcr : CheckResizeRequired cfg s = true
      · rw [if_pos hcr] at h
        rcases hrg : resizeGo (fun s3 k3 d3 => insertF fuel cfg s3 k3 d3) s
            (requestedGrowSize cfg s) with _ | ⟨r1, s3⟩
        · rw [hrg] at h; cases h
        · have hs3 : ∀ i, (s3.table.getD i default).State = .OCCUPIED →
              P (s3.table.getD i default).Key := by
            unfold resizeGo at hrg
            refine rehashGo_preserves_keyPred hPtr
              (fun s4 key4 d4 r4 s5 h4 hs4 hk4 => ih cfg s4 key4 d4 r4 s5 hPtr h4 hs4 hk4)
              s.table
              (fun sl hm ho => ?_) _ _ _ hrg (fun i hocc => ?_)
            · obtain ⟨i, hi, hgd⟩ := mem_imp_getD hm
              have := hsafe i (by rw [hgd]; exact ho)
              rw [hgd] at this
              exact this
            · dsimp at hocc
              rw [getD_replicate] at hocc
              cases hocc
          rw [hrg] at h
          rcases r1 with e | u
          · simp only [Option.some_inj] at h
            rw [← ((Prod.mk.injEq _ _ _ _).mp h).2]
            exact hs3
          · rw [Option.some_inj] at h
            have h2 : s2 = (linearProbeInsert cfg s3 kk d).2 := by rw [h]
            rw [h2]
            exact lpi_preserves_keyPred hs3 hkk
      · rw [if_neg (by simpa using hcr)] at h
        rw [Option.some_inj] at h
        have h2 : s2 = (linearProbeInsert cfg s kk d).2 := by rw [h]
        rw [h2]
        exact lpi_preserves_keyPred hsafe hkk

/-- Unfolding insert when no resize is required. -/
theorem insertF_noresize {V : Type} {cfg : OAHTConfig V} {s : HT V} {k : CKey}
    {d : Option V} (fuel : Nat) (h : CheckResizeRequired cfg s = false) :
    insertF (fuel + 1) cfg s (some k) d = some (linearProbeInsert cfg s k d) := by
  unfold insertF
  dsimp only
  rw [if_neg (by simp [h])]

/-- Unfolding insert when a resize is required. -/
theorem insertF_resize {V : Type} {cfg : OAHTConfig V} {s : HT V} {k : CKey}
    {d : Option V} (fuel : Nat) (h : CheckResizeRequired cfg s = true) :
    insertF (fuel + 1) cfg s (some k) d =
      match resizeTableF fuel cfg s (requestedGrowSize cfg s) with
      | none => none
      | some (.error e, s2) => some (.error e, s2)
      | some (.ok _, s2) => some (linearProbeInsert cfg s2 k d) := by
  unfold insertF resizeTableF
  dsimp only
  rw [if_pos h]

theorem resizeTableF_released {V : Type} (fuel : Nat) (cfg : OAHTConfig V) (s : HT V)
    (n : Nat) (r : Except OAHashTableException Unit) (s2 : HT V)
    (h : resizeTableF fuel cfg s n = some (r, s2)) : s2.released = s.released := by
  unfold resizeTableF resizeGo at h
  have := rehashGo_rel (fun a b => b.released = a.released)
    (fun hab hbc => hbc.trans hab) (fun a => rfl)
    (fun s4 k4 d4 r4 s5 h4 => insertF_released fuel cfg s4 k4 d4 r4 s5 h4)
    s.table _ r s2 h
  simpa using this

theorem resizeTableF_expansions {V : Type} (fuel : Nat) (cfg : OAHTConfig V) (s : HT V)
    (n : Nat) (r : Except OAHashTableException Unit) (s2 : HT V)
    (h : resizeTableF fuel cfg s n = some (r, s2)) :
    s.expansions + 1 ≤ s2.expansions := by
  unfold resizeTableF resizeGo at h
  have := rehashGo_rel (fun a b => a.expansions ≤ b.expansions)
    (fun hab hbc => le_trans hab hbc) (fun a => le_refl _)
    (fun s4 k4 d4 r4 s5 h4 => insertF_expansions_mono fuel cfg s4 k4 d4 r4 s5 h4)
    s.table _ r s2 h
  simpa using this

/-- find never touches anything but the probes counter. -/
theorem findF_frame {V : Type} (cfg : OAHTConfig V) (s : HT V) (key : Option CKey) :
    (findF cfg s key).2.table = s.table ∧ (findF cfg s key).2.count = s.count ∧
      (findF cfg s key).2.expansions = s.expansions ∧
      (findF cfg s key).2.released = s.released := by
  unfold findF
  rcases key with _ | k
  · exact ⟨rfl, rfl, rfl, rfl⟩
  · dsimp only
    rcases (searchLoop s.table s.tableSize (strideOf cfg k s.tableSize)
        (cfg.PrimaryHashFunc k s.tableSize) k s.tableSize
        (cfg.PrimaryHashFunc k s.tableSize) 0).1 with _ | i
    · exact ⟨rfl, rfl, rfl, rfl⟩
    · exact ⟨rfl, rfl, rfl, rfl⟩

theorem getD_of_length_le {V : Type} {l : List (OAHTSlot V)} {i : Nat}
    (h : l.length ≤ i) : l.getD i default = default := by
  simp [List.getD_eq_getElem?_getD, List.getElem?_eq_none h]

theorem resizeTableF_size {V : Type} (fuel : Nat) (cfg : OAHTConfig V) (s : HT V)
    (n : Nat) (r : Except OAHashTableException Unit) (s2 : HT V)
    (h : resizeTableF fuel cfg s n = some (r, s2)) : 2 ≤ s2.table.length := by
  unfold resizeTableF resizeGo at h
  have := rehashGo_rel
    (fun a b => b.table.length = a.table.length ∨ 2 ≤ b.table.length)
    (fun hab hbc => by
      rcases hab with hab | hab <;> rcases hbc with hbc | hbc
      · exact .inl (hbc.trans hab)
      · exact .inr hbc
      · exact .inr (by omega)
      · exact .inr hbc)
    (fun a => .inl rfl)
    (fun s4 k4 d4 r4 s5 h4 => insertF_size fuel cfg s4 k4 d4 r4 s5 h4)
    s.table _ r s2 h
  rcases this with hthis | hthis
  · rw [hthis]
    simpa using GetClosestPrime_ge_two n
  · exact hthis

theorem resizeTableF_preserves_keyPred {V : Type} {cfg : OAHTConfig V} (P : CKey → Prop)
    (hPtr : ∀ x, P x → P (truncKey cfg x)) (fuel : Nat) (s : HT V) (n : Nat)
    (r : Except OAHashTableException Unit) (s2 : HT V)
    (h : resizeTableF fuel cfg s n = some (r, s2))
    (hs : ∀ i, (s.table.getD i default).State = .OCCUPIED →
      P (s.table.getD i default).Key) :
    ∀ i, (s2.table.getD i default).State = .OCCUPIED →
      P (s2.table.getD i default).Key := by
  unfold resizeTableF resizeGo at h
  refine rehashGo_preserves_keyPred hPtr
    (fun s4 key4 d4 r4 s5 h4 hs4 hk4 =>
      insertF_preserves_keyPred _ fuel cfg s4 key4 d4 r4 s5 hPtr h4 hs4 hk4)
    s.table (fun sl hm ho => ?_) _ _ _ h (fun i hocc => ?_)
  · obtain ⟨i, hi, hgd⟩ := mem_imp_getD hm
    have := hs i (by rw [hgd]; exact ho)
    rw [hgd] at this
    exact this
  · dsimp at hocc
    rw [getD_replicate] at hocc
    cases hocc

/-- Every chosen slot of the spec-side insertion choice lies on the probe
walk, at a step before which the walk saw no Empty slot. -/
theorem lpiSpecChoice_steps {V : Type} {table : List (OAHTSlot V)} {m orig stride c pc : Nat}
    (h : lpiSpecChoice table m orig stride = some (c, pc)) :
    ∃ cs, cs < m ∧ c = probe m orig stride cs ∧
      ∀ l, l < cs → ¬ isEmptyAt table m orig stride l := by
  unfold lpiSpecChoice at h
  rcases hFE : (firstIdxBelow (fun i => decide (isEmptyAt table m orig stride i)) m) with _ | j <;>
    rw [hFE] at h <;>
    rcases hFD : (firstIdxBelow (fun i => decide (isDeletedAt table m orig stride i)) m)
      with _ | d <;> rw [hFD] at h <;> dsimp only at h
  · cases h
  · have hEall := firstIdxBelow_none_inv hFE
    obtain ⟨hdm, _, _⟩ := firstIdxBelow_some_inv hFD
    rw [Option.some_inj] at h
    refine ⟨d, hdm, (((Prod.mk.injEq _ _ _ _).mp h).1).symm, fun l hl =>
      of_decide_eq_false (hEall l (by omega))⟩
  · obtain ⟨hjm, _, hjmin⟩ := firstIdxBelow_some_inv hFE
    rw [Option.some_inj] at h
    exact ⟨j, hjm, (((Prod.mk.injEq _ _ _ _).mp h).1).symm, fun l hl =>
      of_decide_eq_false (hjmin l hl)⟩
  · obtain ⟨hjm, _, hjmin⟩ := firstIdxBelow_some_inv hFE
    obtain ⟨hdm, _, _⟩ := firstIdxBelow_some_inv hFD
    by_cases hdj : d < j
    · rw [if_pos hdj, Option.some_inj] at h
      exact ⟨d, by omega, (((Prod.mk.injEq _ _ _ _).mp h).1).symm, fun l hl =>
        of_decide_eq_false (hjmin l (by omega))⟩
    · rw [if_neg hdj, Option.some_inj] at h
      exact ⟨j, hjm, (((Prod.mk.injEq _ _ _ _).mp h).1).symm, fun l hl =>
        of_decide_eq_false (hjmin l hl)⟩

theorem findF_probes_ge {V : Type} (cfg : OAHTConfig V) (s : HT V) (key : Option CKey) :
    s.probes ≤ (findF cfg s key).2.probes := by
  unfold findF
  rcases key with _ | k
  · exact le_refl _
  · dsimp only
    rcases (searchLoop s.table s.tableSize (strideOf cfg k s.tableSize)
        (cfg.PrimaryHashFunc k s.tableSize) k s.tableSize
        (cfg.PrimaryHashFunc k s.tableSize) 0).1 with _ | i <;> dsimp <;> omega

theorem findF_error_kind {V : Type} {cfg : OAHTConfig V} {s : HT V} {key : Option CKey}
    {e : OAHashTableException} (h : (findF cfg s key).1 = .error e) :
    e = .E_ITEM_NOT_FOUND := by
  unfold findF at h
  rcases key with _ | k
  · cases h; rfl
  · dsimp only at h
    rcases hsr : (searchLoop s.table s.tableSize (strideOf cfg k s.tableSize)
        (cfg.PrimaryHashFunc k s.tableSize) k s.tableSize
        (cfg.PrimaryHashFunc k s.tableSize) 0).1 with _ | i <;>
      rw [hsr] at h <;> dsimp only at h
    · cases h; rfl
    · cases h

theorem packMoveLoop_error_kind {V : Type} (cfg : OAHTConfig V)
    (stride stoppingIndex insFuel : Nat) :
    ∀ fuel (s : HT V) cur e s2,
      packMoveLoop cfg stride stoppingIndex insFuel fuel s cur = some (.error e, s2) →
      e = .E_NO_MEMORY := by
  intro fuel
  induction fuel with
  | zero => intro _ _ _ _ h; cases h
  | succ fuel ih =>
    intro s cur e s2 h
    unfold packMoveLoop at h
    by_cases hcur : cur = stoppingIndex
    · rw [if_pos hcur] at h
      rw [Option.some_inj] at h
      cases ((Prod.mk.injEq _ _ _ _).mp h).1
    · rw [if_neg hcur] at h
      dsimp only at h
      rcases hins0 : insertF insFuel cfg
          { s with
            table := s.table.set ((cur + stride) % s.tableSize)
              { s.table.getD ((cur + stride) % s.tableSize) default with State := .UNOCCUPIED }
            count := s.count - 1 }
          (some (s.table.getD ((cur + stride) % s.tableSize) default).Key)
          (s.table.getD ((cur + stride) % s.tableSize) default).data with _ | ⟨r1, s3⟩
      · rw [hins0] at h; cases h
      · rw [hins0] at h
        rcases r1 with e1 | u
        · rw [Option.some_inj] at h
          have he1 : e1 = e := by
            have hp := ((Prod.mk.injEq _ _ _ _).mp h).1
            injection hp
          rw [← he1]
          exact insertF_error_kind insFuel cfg _ _ _ e1 s3 hins0
        · exact ih s3 _ e s2 h

theorem packTableF_error_kind {V : Type} {cfg : OAHTConfig V} {fuel : Nat} {s : HT V}
    {index : Nat} {e : OAHashTableException} {s2 : HT V}
    (h : packTableF fuel cfg s index = some (.error e, s2)) : e = .E_NO_MEMORY := by
  unfold packTableF at h
  by_cases hpol : cfg.DeletionPolicy ≠ .PACK
  · rw [if_pos hpol] at h
    rw [Option.some_inj] at h
    cases ((Prod.mk.injEq _ _ _ _).mp h).1
  · rw [if_neg hpol] at h
    exact packMoveLoop_error_kind cfg _ _ fuel fuel s index e s2 h

/-- A remove that fails with E_ITEM_NOT_FOUND changed nothing but the
probes counter (which only grows). -/
theorem removeF_notfound_frame {V : Type} {fuel : Nat} {cfg : OAHTConfig V} {s : HT V}
    {k : CKey} {s2 : HT V}
    (h : removeF fuel cfg s (some k) = some (.error .E_ITEM_NOT_FOUND, s2)) :
    s2.table = s.table ∧ s2.count = s.count ∧ s2.expansions = s.expansions ∧
      s2.released = s.released ∧ s.probes ≤ s2.probes := by
  unfold removeF at h
  dsimp only at h
  rcases hsr : (searchLoop s.table s.tableSize (strideOf cfg k s.tableSize)
      (cfg.PrimaryHashFunc k s.tableSize) k s.tableSize
      (cfg.PrimaryHashFunc k s.tableSize) 0).1 with _ | i
  · rw [hsr] at h
    dsimp only at h
    rw [Option.some_inj] at h
    rw [← ((Prod.mk.injEq _ _ _ _).mp h).2]
    exact ⟨rfl, rfl, rfl, rfl, by dsimp; omega⟩
  · rw [hsr] at h
    dsimp only at h
    rcases hpol : cfg.DeletionPolicy with _ | _
    · rw [hpol] at h
      dsimp only at h
      cases ((Prod.mk.injEq _ _ _ _).mp (Option.some_inj.mp h)).1
    · rw [hpol] at h
      dsimp only at h
      rcases hpk : packTableF fuel cfg _ i with _ | ⟨r1, s3⟩
      · rw [hpk] at h; cases h
      · rw [hpk] at h
        rcases r1 with e1 | u
        · rw [Option.some_inj] at h
          have he1 : e1 = OAHashTableException.E_ITEM_NOT_FOUND := by
            have hp := ((Prod.mk.injEq _ _ _ _).mp h).1
            injection hp
          have := packTableF_error_kind hpk
          rw [he1] at this
          cases this
        · rw [Option.some_inj] at h
          cases ((Prod.mk.injEq _ _ _ _).mp h).1

/-- find fails when no slot in the table is occupied with the query key. -/
theorem findF_nomatch {V : Type} {cfg : OAHTConfig V} {s : HT V} {k : CKey}
    (horig : cfg.PrimaryHashFunc k s.tableSize < s.tableSize)
    (hcop : Nat.Coprime (strideOf cfg k s.tableSize) s.tableSize)
    (hnomatch : ∀ i, i < s.table.length →
      ¬ ((s.table.getD i default).State = .OCCUPIED ∧ (s.table.getD i default).Key = k)) :
    (findF cfg s (some k)).1 = .error .E_ITEM_NOT_FOUND := by
  have hm : 0 < s.tableSize := by omega
  have hnM : ∀ l, l < s.tableSize →
      ¬ isMatchAt s.table s.tableSize (cfg.PrimaryHashFunc k s.tableSize)
        (strideOf cfg k s.tableSize) k l := by
    intro l hl hM
    exact hnomatch (probe s.tableSize (cfg.PrimaryHashFunc k s.tableSize)
      (strideOf cfg k s.tableSize) l) (probe_lt hm) ⟨hM.1, hM.2⟩
  unfold findF
  dsimp only
  rcases hFE : (firstIdxBelow (fun i => decide (isEmptyAt s.table s.tableSize
      (cfg.PrimaryHashFunc k s.tableSize) (strideOf cfg k s.tableSize) i)) s.tableSize)
      with _ | j
  · have hEall := firstIdxBelow_none_inv hFE
    rw [searchLoop_exhaust hcop horig
      (fun l hl => ⟨hnM l hl, of_decide_eq_false (hEall l hl)⟩)]
  · obtain ⟨hjm, hjE', hjmin⟩ := firstIdxBelow_some_inv hFE
    rw [searchLoop_empty_stop hcop horig hjm (of_decide_eq_true hjE') (hnM j hjm)
      (fun l hl => ⟨hnM l (by omega), of_decide_eq_false (hjmin l hl)⟩)]

/-- After a successful linearProbeInsert of key k1 into a table none of
whose occupied slots stores (up to truncation) the stored key kq, looking
up kq (which is k1's truncation, possibly equal to k1) finds exactly the
inserted value. -/
theorem lpi_find_stored {V : Type} (cfg : OAHTConfig V) (s1 : HT V) (k1 kq : CKey)
    (v : Option V) (s2 : HT V)
    (hq : kq = truncKey cfg k1)
    (hhash : cfg.PrimaryHashFunc kq s1.tableSize = cfg.PrimaryHashFunc k1 s1.tableSize)
    (hstr : strideOf cfg kq s1.tableSize = strideOf cfg k1 s1.tableSize)
    (horig : cfg.PrimaryHashFunc k1 s1.tableSize < s1.tableSize)
    (hcop : Nat.Coprime (strideOf cfg k1 s1.tableSize) s1.tableSize)
    (hnodup1 : ∀ i, (s1.table.getD i default).State = .OCCUPIED →
      truncKey cfg (s1.table.getD i default).Key ≠ kq)
    (hlpi : linearProbeInsert cfg s1 k1 v = (.ok (), s2)) :
    (findF cfg s2 (some kq)).1 = .ok v := by
  have hqq : truncKey cfg kq = kq := by rw [hq, truncKey_idem]
  rw [linearProbeInsert_eq_spec cfg s1 k1 v horig hcop] at hlpi
  rcases hch : lpiSpecChoice s1.table s1.tableSize (cfg.PrimaryHashFunc k1 s1.tableSize)
      (strideOf cfg k1 s1.tableSize) with _ | ⟨c, pc⟩
  · rw [hch] at hlpi
    cases ((Prod.mk.injEq _ _ _ _).mp hlpi).1
  · rw [hch] at hlpi
    dsimp only at hlpi
    have hs2 : s2 = { s1 with
        table := s1.table.set c ⟨.OCCUPIED, truncKey cfg k1, v⟩
        count := s1.count + 1
        probes := s1.probes + pc } := (((Prod.mk.injEq _ _ _ _).mp hlpi).2).symm
    obtain ⟨cs, hcs, hcseq, hnoE⟩ := lpiSpecChoice_steps hch
    have hclen : c < s1.table.length := by
      rw [hcseq]
      exact probe_lt (by omega)
    have hTS : ({ s1 with
        table := s1.table.set c ⟨.OCCUPIED, truncKey cfg k1, v⟩
        count := s1.count + 1
        probes := s1.probes + pc } : HT V).tableSize = s1.tableSize := by
      simp [HT.tableSize, List.length_set]
    rw [hs2]
    unfold findF
    dsimp only
    rw [hTS, hhash, hstr]
    have hMj : isMatchAt (s1.table.set c ⟨.OCCUPIED, truncKey cfg k1, v⟩) s1.tableSize
        (cfg.PrimaryHashFunc k1 s1.tableSize) (strideOf cfg k1 s1.tableSize) kq cs := by
      constructor
      · show ((s1.table.set c _).getD (probe _ _ _ cs) default).State = _
        rw [← hcseq, getD_set_self hclen]
      · show ((s1.table.set c _).getD (probe _ _ _ cs) default).Key = kq
        rw [← hcseq, getD_set_self hclen]
        exact hq.symm
    have hmin : ∀ l, l < cs →
        ¬ isMatchAt (s1.table.set c ⟨.OCCUPIED, truncKey cfg k1, v⟩) s1.tableSize
            (cfg.PrimaryHashFunc k1 s1.tableSize) (strideOf cfg k1 s1.tableSize) kq l ∧
          ¬ isEmptyAt (s1.table.set c ⟨.OCCUPIED, truncKey cfg k1, v⟩) s1.tableSize
            (cfg.PrimaryHashFunc k1 s1.tableSize) (strideOf cfg k1 s1.tableSize) l := by
      intro l hl
      have hne : probe s1.tableSize (cfg.PrimaryHashFunc k1 s1.tableSize)
          (strideOf cfg k1 s1.tableSize) l ≠ c := by
        rw [hcseq]
        intro hc
        have := probe_inj hcop (by omega) hcs hc
        omega
      have hslot : (s1.table.set c ⟨.OCCUPIED, truncKey cfg k1, v⟩).getD
          (probe s1.tableSize (cfg.PrimaryHashFunc k1 s1.tableSize)
            (strideOf cfg k1 s1.tableSize) l) default =
          s1.table.getD (probe s1.tableSize (cfg.PrimaryHashFunc k1 s1.tableSize)
            (strideOf cfg k1 s1.tableSize) l) default :=
        getD_set_ne (fun hc => hne hc.symm)
      constructor
      · intro hM
        obtain ⟨hO, hK⟩ := hM
        rw [show stepSlot (s1.table.set c ⟨.OCCUPIED, truncKey cfg k1, v⟩) s1.tableSize
            (cfg.PrimaryHashFunc k1 s1.tableSize) (strideOf cfg k1 s1.tableSize) l =
            s1.table.getD (probe s1.tableSize (cfg.PrimaryHashFunc k1 s1.tableSize)
              (strideOf cfg k1 s1.tableSize) l) default from hslot] at hO hK
        have := hnodup1 _ hO
        rw [hK, hqq] at this
        exact this rfl
      · intro hE
        have hE2 : (s1.table.getD (probe s1.tableSize (cfg.PrimaryHashFunc k1 s1.tableSize)
            (strideOf cfg k1 s1.tableSize) l) default).State = .UNOCCUPIED := by
          rw [← hslot]
          exact hE
        exact hnoE l hl hE2
    rw [searchLoop_found hcop horig hcs hMj hmin]
    dsimp only
    rw [← hcseq, getD_set_self hclen]

/-- After a successful insert of key k1 (growth included) into a table
none of whose occupied slots stores kq up to truncation, find on the
stored key kq returns the inserted value. -/
theorem insertF_find_stored {V : Type} (fuel : Nat) (cfg : OAHTConfig V) (s : HT V)
    (k1 kq : CKey) (v : Option V) (s2 : HT V)
    (hq : kq = truncKey cfg k1)
    (hhash : ∀ mm, cfg.PrimaryHashFunc kq mm = cfg.PrimaryHashFunc k1 mm)
    (hstr : ∀ mm, strideOf cfg kq mm = strideOf cfg k1 mm)
    (hph : ∀ mm, 0 < mm → cfg.PrimaryHashFunc k1 mm < mm)
    (hcop : ∀ mm, Nat.Coprime (strideOf cfg k1 mm) mm)
    (hm : 0 < s.tableSize)
    (hnodup : ∀ i, i < s.table.length → (s.table.getD i default).State = .OCCUPIED →
      truncKey cfg (s.table.getD i default).Key ≠ kq)
    (hins : insertF (fuel + 1) cfg s (some k1) v = some (.ok (), s2)) :
    (findF cfg s2 (some kq)).1 = .ok v := by
  have hPtr : ∀ x, truncKey cfg x ≠ kq → truncKey cfg (truncKey cfg x) ≠ kq := by
    intro x hx
    rw [truncKey_idem]
    exact hx
  have hnodupU : ∀ i, (s.table.getD i default).State = .OCCUPIED →
      truncKey cfg (s.table.getD i default).Key ≠ kq := by
    intro i hocc
    rcases Nat.lt_or_ge i s.table.length with hlt | hge
    · exact hnodup i hlt hocc
    · rw [getD_of_length_le hge] at hocc
      cases hocc
  by_cases hcr : CheckResizeRequired cfg s = true
  · rw [insertF_resize fuel hcr] at hins
    rcases hrt : resizeTableF fuel cfg s (requestedGrowSize cfg s) with _ | ⟨r1, s3⟩
    · rw [hrt] at hins; cases hins
    · rw [hrt] at hins
      rcases r1 with e | u
      · dsimp only at hins
        rw [Option.some_inj] at hins
        cases ((Prod.mk.injEq _ _ _ _).mp hins).1
      · dsimp only at hins
        rw [Option.some_inj] at hins
        have hm3 : 0 < s3.tableSize := by
          have := resizeTableF_size fuel cfg s _ _ _ hrt
          unfold HT.tableSize
          omega
        have hnodup3 := resizeTableF_preserves_keyPred
          (fun x => truncKey cfg x ≠ kq) hPtr fuel s _ _ _ hrt hnodupU
        exact lpi_find_stored cfg s3 k1 kq v s2 hq (hhash _) (hstr _)
          (hph _ hm3) (hcop _) hnodup3 hins
  · rw [insertF_noresize fuel (by simpa using hcr)] at hins
    rw [Option.some_inj] at hins
    exact lpi_find_stored cfg s k1 kq v s2 hq (hhash _) (hstr _)
      (hph _ hm) (hcop _) hnodupU hins

/-! The claims. -/

/-- C3: For every insert, the probe walk from the home index remembers the
first Deleted slot seen and stops at the first Empty slot, inserting into
the remembered tombstone if one exists and otherwise into that Empty slot;
if a full cycle finds no Empty slot the remembered tombstone is used, and
if there is also no tombstone the insert fails with the table-full error
E_NO_MEMORY, a defined, reported failure.  Stated as a refinement:
linearProbeInsert equals the selection function lpiSpecChoice written from
the spec's words. -/
theorem C3_insert_walk_matches_spec {V : Type} (cfg : OAHTConfig V) (s : HT V)
    (Key : CKey) (Data : Option V)
    (horig : cfg.PrimaryHashFunc Key s.tableSize < s.tableSize)
    (hcop : Nat.Coprime (strideOf cfg Key s.tableSize) s.tableSize) :
    linearProbeInsert cfg s Key Data =
      match lpiSpecChoice s.table s.tableSize (cfg.PrimaryHashFunc Key s.tableSize)
          (strideOf cfg Key s.tableSize) with
      | some (c, pc) =>
        (.ok (), { s with
          table := s.table.set c ⟨.OCCUPIED, truncKey cfg Key, Data⟩
          count := s.count + 1
          probes := s.probes + pc })
      | none => (.error .E_NO_MEMORY, { s with probes := s.probes + s.tableSize }) :=
  linearProbeInsert_eq_spec cfg s Key Data horig hcop

/-- Witness for C3 at a concrete table with a tombstone at slot 0 and an
occupied slot at 1: the insert reuses the tombstone. -/
theorem C3_insert_walk_matches_spec_witness :
    cfgLinear.PrimaryHashFunc ['a'] tblTomb.tableSize < tblTomb.tableSize ∧
    Nat.Coprime (strideOf cfgLinear ['a'] tblTomb.tableSize) tblTomb.tableSize ∧
    linearProbeInsert cfgLinear tblTomb ['a'] (some 7) =
      match lpiSpecChoice tblTomb.table tblTomb.tableSize
          (cfgLinear.PrimaryHashFunc ['a'] tblTomb.tableSize)
          (strideOf cfgLinear ['a'] tblTomb.tableSize) with
      | some (c, pc) =>
        (.ok (), { tblTomb with
          table := tblTomb.table.set c ⟨.OCCUPIED, truncKey cfgLinear ['a'], some 7⟩
          count := tblTomb.count + 1
          probes := tblTomb.probes + pc })
      | none =>
        (.error .E_NO_MEMORY, { tblTomb with probes := tblTomb.probes + tblTomb.tableSize }) :=
  ⟨by decide, by decide,
    C3_insert_walk_matches_spec cfgLinear tblTomb ['a'] (some 7) (by decide) (by decide)⟩

/-- C4 (code bug): removing A from the reachable cfgPack table
[Empty, Empty, Empty, A, B] frees slot 3; the compaction walk finds slot 0
Empty right after wrapping past index 4, and the stopping index
(currentIndex - stride) % tableSize is computed in unsigned arithmetic as
u32sub 1 1 % 5 ... in the analogous A-removal trace (0 - 1 underflows to
2^32 - 1, and (2^32 - 1) % 5 = 0 instead of the intended 4), so the second
probe also captures the Empty slot 0: the result has an OCCUPIED slot
with the never-inserted empty key, and count 1 while two slots are
OCCUPIED. -/
theorem C4_pack_stopping_index_wraparound_bug :
    removeF 10 cfgPack tblPack (some ['A']) =
      some (.ok (), ⟨[⟨.OCCUPIED, [], none⟩, default, default,
        ⟨.UNOCCUPIED, ['A'], some 10⟩, ⟨.OCCUPIED, ['B'], some 20⟩], 1, 3, 0, []⟩) ∧
    u32sub 0 1 % 5 = 0 ∧
    (0 + 5 - 1) % 5 = 4 ∧
    occCount ⟨[⟨.OCCUPIED, [], none⟩, default, default,
      ⟨.UNOCCUPIED, ['A'], some 10⟩, ⟨.OCCUPIED, ['B'], some 20⟩], 1, 3, 0, []⟩ = 2 := by
  decide

/-- C7 counterexample: the claim says insert's null-key error kind also
differs from the TableFullError kind; in the code both are E_NO_MEMORY.
cfgDegenerate's stride equals the table size, so the probe walk of an
insert into tblDegenerate revisits its home slot immediately and the
table-full raise is reached. -/
theorem C7_counterexample :
    errOf (insertF 10 cfgDegenerate tblDegenerate none (some 1)) =
      errOf (insertF 10 cfgDegenerate tblDegenerate (some ['a']) (some 1)) ∧
    errOf (insertF 10 cfgDegenerate tblDegenerate none (some 1)) = some .E_NO_MEMORY := by
  decide

/-- C7 (amended): insert with a null key fails with E_NO_MEMORY while
remove and find with a null key fail with E_ITEM_NOT_FOUND — insert's
null-key kind differs from the not-found kind, but it coincides with the
table-full kind, which is also E_NO_MEMORY. -/
theorem C7_null_key_error_kinds {V : Type} (fuel : Nat) (cfg : OAHTConfig V) (s : HT V)
    (v : Option V) :
    insertF (fuel + 1) cfg s none v = some (.error .E_NO_MEMORY, s) ∧
    removeF fuel cfg s none = some (.error .E_ITEM_NOT_FOUND, s) ∧
    findF cfg s none = (.error .E_ITEM_NOT_FOUND, s) ∧
    OAHashTableException.E_NO_MEMORY ≠ OAHashTableException.E_ITEM_NOT_FOUND :=
  ⟨rfl, rfl, rfl, by decide⟩

/-- C8: growth never invokes the release callback: for every resizeTable
run that completes, the list of released values is unchanged, whatever the
table contents. -/
theorem C8_growth_never_releases {V : Type} (fuel : Nat) (cfg : OAHTConfig V) (s : HT V)
    (newSize : Nat) (r : Except OAHashTableException Unit) (s2 : HT V)
    (h : resizeTableF fuel cfg s newSize = some (r, s2)) :
    s2.released = s.released :=
  resizeTableF_released fuel cfg s newSize r s2 h

/-- Witness for C8: a concrete growth of the empty 3-slot table to 7
slots releases nothing. -/
theorem C8_growth_never_releases_witness :
    resizeTableF 5 cfgLinear tblLinear 7 =
      some (.ok (), ⟨List.replicate 7 default, 0, 0, 1, []⟩) ∧
    (⟨List.replicate 7 default, 0, 0, 1, []⟩ : HT Nat).released = tblLinear.released :=
  ⟨by decide, C8_growth_never_releases 5 cfgLinear tblLinear 7 (.ok ())
    ⟨List.replicate 7 default, 0, 0, 1, []⟩ (by decide)⟩

/-- C1 counterexample: in a table already holding key a with value 1 (a
state in which the insert succeeds, reached by inserting a once), a second
successful insert of a with value 2 is followed by a find that returns
the value 1 of the earlier occurrence, not the just-inserted 2. -/
theorem C1_counterexample :
    insertF 10 cfgLinear ⟨[⟨.OCCUPIED, ['a'], some 1⟩, default, default], 1, 1, 0, []⟩
        (some ['a']) (some 2) =
      some (.ok (), ⟨[⟨.OCCUPIED, ['a'], some 1⟩, ⟨.OCCUPIED, ['a'], some 2⟩, default],
        2, 3, 0, []⟩) ∧
    (findF cfgLinear ⟨[⟨.OCCUPIED, ['a'], some 1⟩, ⟨.OCCUPIED, ['a'], some 2⟩, default],
        2, 3, 0, []⟩ (some ['a'])).1 = .ok (some 1) ∧
    (some 1 : Option Nat) ≠ some 2 := by
  decide

/-- C1 (amended): for every key/value pair whose insert call returns
successfully, where the key is short enough not to be truncated and no
occupied slot of the table already stores that key (up to truncation), an
immediately following find succeeds and returns that value; when an
earlier occurrence of the key exists, find succeeds but may return the
earlier occurrence's value instead. -/
theorem C1_insert_find_roundtrip {V : Type} (fuel : Nat) (cfg : OAHTConfig V) (s : HT V)
    (k : CKey) (v : Option V) (s2 : HT V)
    (hph : ∀ mm, 0 < mm → cfg.PrimaryHashFunc k mm < mm)
    (hcop : ∀ mm, Nat.Coprime (strideOf cfg k mm) mm)
    (hm : 0 < s.tableSize)
    (hk : truncKey cfg k = k)
    (hnodup : ∀ i, i < s.table.length → (s.table.getD i default).State = .OCCUPIED →
      truncKey cfg (s.table.getD i default).Key ≠ k)
    (hins : insertF (fuel + 1) cfg s (some k) v = some (.ok (), s2)) :
    (findF cfg s2 (some k)).1 = .ok v :=
  insertF_find_stored fuel cfg s k k v s2 hk.symm (fun _ => rfl) (fun _ => rfl)
    hph hcop hm hnodup hins

/-- Witness for C1 at the freshly built cfgLinear table. -/
theorem C1_insert_find_roundtrip_witness :
    insertF 10 cfgLinear tblLinear (some ['a']) (some 1) =
      some (.ok (), ⟨[⟨.OCCUPIED, ['a'], some 1⟩, default, default], 1, 1, 0, []⟩) ∧
    (findF cfgLinear ⟨[⟨.OCCUPIED, ['a'], some 1⟩, default, default], 1, 1, 0, []⟩
      (some ['a'])).1 = .ok (some 1) :=
  ⟨by decide,
    C1_insert_find_roundtrip 9 cfgLinear tblLinear ['a'] (some 1)
      ⟨[⟨.OCCUPIED, ['a'], some 1⟩, default, default], 1, 1, 0, []⟩
      (fun mm hmm => hmm) (fun mm => Nat.coprime_one_left mm)
      (by decide) (by decide) (by decide) (by decide)⟩

/-- C10 counterexample: with MAX_KEYLEN 3 the keys abc and abd agree on
their first two (MAX_KEYLEN - 1) characters; after successfully inserting
abc into the empty table, find on abd fails — truncated keys are not
indistinguishable at lookup, because find compares the untruncated query
against the truncated stored key. -/
theorem C10_counterexample :
    insertF 10 cfgShortKey (mkOAHashTable cfgShortKey) (some ['a','b','c']) (some 7) =
      some (.ok (), ⟨⟨.OCCUPIED, ['a','b'], some 7⟩ :: List.replicate 4 default,
        1, 1, 0, []⟩) ∧
    List.take (cfgShortKey.MAX_KEYLEN - 1) ['a','b','c'] =
      List.take (cfgShortKey.MAX_KEYLEN - 1) ['a','b','d'] ∧
    (findF cfgShortKey ⟨⟨.OCCUPIED, ['a','b'], some 7⟩ :: List.replicate 4 default,
      1, 1, 0, []⟩ (some ['a','b','d'])).1 = .error .E_ITEM_NOT_FOUND := by
  decide

/-- C10 (amended): keys are stored truncated to MAX_KEYLEN - 1
characters, but lookup compares the untruncated query key against the
stored truncated key.  After successfully inserting k1 into an otherwise
key-disjoint table, find succeeds exactly on the truncation of k1: find
of the truncated key returns the inserted value (given the hash and
stride of the two agree), while find of any other key k2 agreeing with k1
on the first MAX_KEYLEN - 1 characters fails. -/
theorem C10_truncation_at_lookup {V : Type} (fuel : Nat) (cfg : OAHTConfig V) (s : HT V)
    (k1 k2 : CKey) (v : Option V) (s2 : HT V)
    (hph1 : ∀ mm, 0 < mm → cfg.PrimaryHashFunc k1 mm < mm)
    (hcop1 : ∀ mm, Nat.Coprime (strideOf cfg k1 mm) mm)
    (hhash : ∀ mm, cfg.PrimaryHashFunc (truncKey cfg k1) mm = cfg.PrimaryHashFunc k1 mm)
    (hstr : ∀ mm, strideOf cfg (truncKey cfg k1) mm = strideOf cfg k1 mm)
    (hph2 : ∀ mm, 0 < mm → cfg.PrimaryHashFunc k2 mm < mm)
    (hcop2 : ∀ mm, Nat.Coprime (strideOf cfg k2 mm) mm)
    (hm : 0 < s.tableSize)
    (htr : truncKey cfg k2 = truncKey cfg k1)
    (hne : k2 ≠ truncKey cfg k1)
    (hnodup : ∀ i, i < s.table.length → (s.table.getD i default).State = .OCCUPIED →
      truncKey cfg (s.table.getD i default).Key ≠ truncKey cfg k1 ∧
        (s.table.getD i default).Key ≠ k2)
    (hins : insertF (fuel + 1) cfg s (some k1) v = some (.ok (), s2)) :
    (findF cfg s2 (some (truncKey cfg k1))).1 = .ok v ∧
    (findF cfg s2 (some k2)).1 = .error .E_ITEM_NOT_FOUND := by
  constructor
  · exact insertF_find_stored fuel cfg s k1 (truncKey cfg k1) v s2 rfl hhash hstr
      hph1 hcop1 hm (fun i hi hocc => (hnodup i hi hocc).1) hins
  · have hP : ∀ i, (s2.table.getD i default).State = .OCCUPIED →
        (s2.table.getD i default).Key ≠ k2 ∧
          truncKey cfg (s2.table.getD i default).Key ≠ k2 := by
      refine insertF_preserves_keyPred (fun x => x ≠ k2 ∧ truncKey cfg x ≠ k2)
        (fuel + 1) cfg s (some k1) v (.ok ()) s2 ?_ hins ?_ ?_
      · intro x hx
        refine ⟨hx.2, ?_⟩
        rw [truncKey_idem]
        exact hx.2
      · intro i hocc
        rcases Nat.lt_or_ge i s.table.length with hlt | hge
        · obtain ⟨h1, h2⟩ := hnodup i hlt hocc
          refine ⟨h2, fun hc => ?_⟩
          have hcc : truncKey cfg (truncKey cfg (s.table.getD i default).Key) =
              truncKey cfg k2 := by rw [hc]
          rw [truncKey_idem, htr] at hcc
          exact h1 hcc
        · rw [getD_of_length_le hge] at hocc
          cases hocc
      · intro kk hkk
        rw [Option.some_inj] at hkk
        rw [← hkk]
        constructor
        · intro hc
          exact hne hc.symm
        · rw [truncKey_idem]
          intro hc
          exact hne hc.symm
    have hm2 : 0 < s2.tableSize := by
      rcases insertF_size (fuel + 1) cfg s (some k1) v (.ok ()) s2 hins with hh | hh
      · unfold HT.tableSize at hm ⊢
        omega
      · unfold HT.tableSize
        omega
    exact findF_nomatch (hph2 _ hm2) (hcop2 _)
      (fun i hi hc => (hP i hc.1) |>.1 hc.2)

/-- Witness for C10: inserting abc under MAX_KEYLEN 3, find of ab (the
stored truncation) returns the value and find of abd fails. -/
theorem C10_truncation_at_lookup_witness :
    insertF 10 cfgShortKey (mkOAHashTable cfgShortKey) (some ['a','b','c']) (some 7) =
      some (.ok (), ⟨⟨.OCCUPIED, ['a','b'], some 7⟩ :: List.replicate 4 default,
        1, 1, 0, []⟩) ∧
    ((findF cfgShortKey ⟨⟨.OCCUPIED, ['a','b'], some 7⟩ :: List.replicate 4 default,
        1, 1, 0, []⟩ (some (truncKey cfgShortKey ['a','b','c']))).1 = .ok (some 7) ∧
      (findF cfgShortKey ⟨⟨.OCCUPIED, ['a','b'], some 7⟩ :: List.replicate 4 default,
        1, 1, 0, []⟩ (some ['a','b','d'])).1 = .error .E_ITEM_NOT_FOUND) :=
  ⟨by decide,
    C10_truncation_at_lookup 9 cfgShortKey (mkOAHashTable cfgShortKey)
      ['a','b','c'] ['a','b','d'] (some 7)
      ⟨⟨.OCCUPIED, ['a','b'], some 7⟩ :: List.replicate 4 default, 1, 1, 0, []⟩
      (fun mm hmm => hmm) (fun mm => Nat.coprime_one_left mm)
      (fun mm => rfl) (fun mm => rfl)
      (fun mm hmm => hmm) (fun mm => Nat.coprime_one_left mm)
      (by decide) (by decide) (by decide) (by decide) (by decide)⟩

/-- C5 counterexample: with max load factor 1/20 (in (0,1)) and growth
factor 3/2 (> 1), the first insert into the fresh 5-slot table grows once
to 11 slots and succeeds, but 1/11 still exceeds 1/20: a successful
insert after which count/capacity exceeds max_load_factor. -/
theorem C5_counterexample :
    insertF 10 cfgTinyLF (mkOAHashTable cfgTinyLF) (some ['a']) (some 1) =
      some (.ok (), ⟨⟨.OCCUPIED, ['a'], some 1⟩ :: List.replicate 10 default,
        1, 1, 1, []⟩) ∧
    cfgTinyLF.MaxLoadFactor <
      Rat.divInt (⟨⟨.OCCUPIED, ['a'], some 1⟩ :: List.replicate 10 default,
        1, 1, 1, []⟩ : HT Nat).count
        (⟨⟨.OCCUPIED, ['a'], some 1⟩ :: List.replicate 10 default,
          1, 1, 1, []⟩ : HT Nat).tableSize ∧
    (0 : ℚ) < cfgTinyLF.MaxLoadFactor ∧ cfgTinyLF.MaxLoadFactor < 1 ∧
    (1 : ℚ) < cfgTinyLF.GrowthFactor := by
  decide

/-- C5 (amended): after an insert that returns successfully without
triggering growth, count/capacity does not exceed max_load_factor (for
max_load_factor = 1 this includes the completely-full table, whose ratio
is exactly 1); when growth is triggered, a single growth step need not
restore the bound, and with a small enough max_load_factor the ratio
after a successful insert exceeds it. -/
theorem C5_load_factor_bound {V : Type} (fuel : Nat) (cfg : OAHTConfig V) (s : HT V)
    (k : CKey) (v : Option V) (s2 : HT V)
    (hcount : s.count ≤ s.tableSize)
    (hm : 0 < s.tableSize)
    (hcr : CheckResizeRequired cfg s = false)
    (hins : insertF (fuel + 1) cfg s (some k) v = some (.ok (), s2)) :
    Rat.divInt s2.count s2.tableSize ≤ cfg.MaxLoadFactor := by
  rw [insertF_noresize fuel hcr] at hins
  rw [Option.some_inj] at hins
  have hs2 : s2 = (linearProbeInsert cfg s k v).2 := by rw [hins]
  have h1 : (linearProbeInsert cfg s k v).1 = .ok () := by rw [hins]
  have hcnt : s2.count = s.count + 1 := by rw [hs2, lpi_ok_count h1]
  have hlen : s2.tableSize = s.tableSize := by
    unfold HT.tableSize
    rw [hs2, lpi_length]
  rw [hcnt, hlen]
  unfold CheckResizeRequired at hcr
  by_cases hone : cfg.MaxLoadFactor = 1
  · rw [if_pos hone] at hcr
    have hne : s.count ≠ s.tableSize := of_decide_eq_false hcr
    rw [hone, Rat.divInt_eq_div]
    rw [div_le_one (by exact_mod_cast hm)]
    exact_mod_cast (by omega : s.count + 1 ≤ s.tableSize)
  · rw [if_neg hone] at hcr
    have := of_decide_eq_false hcr
    push_cast
    exact le_of_not_lt (by exact_mod_cast this)

/-- Witness for C5 at a no-growth insert with max load factor 1. -/
theorem C5_load_factor_bound_witness :
    CheckResizeRequired cfgLinear tblLinear = false ∧
    Rat.divInt (⟨[⟨.OCCUPIED, ['a'], some 1⟩, default, default], 1, 1, 0, []⟩ : HT Nat).count
        (⟨[⟨.OCCUPIED, ['a'], some 1⟩, default, default], 1, 1, 0, []⟩ : HT Nat).tableSize ≤
      cfgLinear.MaxLoadFactor :=
  ⟨by decide,
    C5_load_factor_bound 9 cfgLinear tblLinear ['a'] (some 1)
      ⟨[⟨.OCCUPIED, ['a'], some 1⟩, default, default], 1, 1, 0, []⟩
      (by decide) (by decide) (by decide) (by decide)⟩

/-- C6: a non-null-key insert (of any outcome) strictly increases the
lifetime expansions counter exactly when max_load_factor = 1 and
count = capacity, or max_load_factor differs from 1 and
(count+1)/capacity exceeds it; in all other states expansions is
unchanged (growth, when performed, happens before probing and bumps
expansions exactly inside resizeTable). -/
theorem C6_growth_condition {V : Type} (fuel : Nat) (cfg : OAHTConfig V) (s : HT V)
    (k : CKey) (v : Option V) (r : Except OAHashTableException Unit) (s2 : HT V)
    (hins : insertF (fuel + 1) cfg s (some k) v = some (r, s2)) :
    s.expansions < s2.expansions ↔
      ((cfg.MaxLoadFactor = 1 ∧ s.count = s.tableSize) ∨
        (cfg.MaxLoadFactor ≠ 1 ∧
          cfg.MaxLoadFactor < Rat.divInt (s.count + 1) s.tableSize)) := by
  have hcrr : CheckResizeRequired cfg s = true ↔
      ((cfg.MaxLoadFactor = 1 ∧ s.count = s.tableSize) ∨
        (cfg.MaxLoadFactor ≠ 1 ∧
          cfg.MaxLoadFactor < Rat.divInt (s.count + 1) s.tableSize)) := by
    unfold CheckResizeRequired
    by_cases hone : cfg.MaxLoadFactor = 1
    · rw [if_pos hone]
      simp only [decide_eq_true_eq]
      constructor
      · intro h
        exact .inl ⟨hone, h⟩
      · rintro (⟨_, h⟩ | ⟨hne, _⟩)
        · exact h
        · exact absurd hone hne
    · rw [if_neg hone]
      simp only [decide_eq_true_eq]
      constructor
      · intro h
        exact .inr ⟨hone, h⟩
      · rintro (⟨h1, _⟩ | ⟨_, h⟩)
        · exact absurd h1 hone
        · exact h
  by_cases hcr : CheckResizeRequired cfg s = true
  · refine iff_of_true ?_ (hcrr.mp hcr)
    rw [insertF_resize fuel hcr] at hins
    rcases hrt : resizeTableF fuel cfg s (requestedGrowSize cfg s) with _ | ⟨r3, s3⟩
    · rw [hrt] at hins
      cases hins
    · rw [hrt] at hins
      have hexp := resizeTableF_expansions fuel cfg s _ r3 s3 hrt
      rcases r3 with e3 | u3
      · dsimp only at hins
        rw [Option.some_inj] at hins
        injection hins with h1 h2
        rw [← h2]
        omega
      · dsimp only at hins
        rw [Option.some_inj] at hins
        have hs2 : s2 = (linearProbeInsert cfg s3 k v).2 := by rw [hins]
        rw [hs2, lpi_expansions]
        omega
  · have hcrf : CheckResizeRequired cfg s = false := by
      rcases h : CheckResizeRequired cfg s with _ | _
      · rfl
      · exact absurd h hcr
    refine iff_of_false ?_ (fun h => hcr (hcrr.mpr h))
    rw [insertF_noresize fuel hcrf, Option.some_inj] at hins
    have hs2 : s2 = (linearProbeInsert cfg s k v).2 := by rw [hins]
    rw [hs2, lpi_expansions]
    exact lt_irrefl _

/-- Witness for C6: a no-growth insert leaves expansions unchanged. -/
theorem C6_growth_condition_witness :
    insertF 10 cfgLinear tblLinear (some ['a']) (some 1) =
      some (.ok (), ⟨[⟨.OCCUPIED, ['a'], some 1⟩, default, default], 1, 1, 0, []⟩) ∧
    ¬ tblLinear.expansions <
        (⟨[⟨.OCCUPIED, ['a'], some 1⟩, default, default], 1, 1, 0, []⟩ : HT Nat).expansions :=
  ⟨by decide, fun hlt =>
    absurd ((C6_growth_condition 9 cfgLinear tblLinear ['a'] (some 1) (.ok ())
      ⟨[⟨.OCCUPIED, ['a'], some 1⟩, default, default], 1, 1, 0, []⟩ (by decide)).mp hlt)
      (by decide)⟩

/-- C2 counterexample: a failing find (key absent) mutates the table
state: the lifetime probes counter changes, so the state is not exactly
as it was immediately before the call. -/
theorem C2_counterexample :
    (findF cfgLinear tblLinear (some ['z'])).1 = .error .E_ITEM_NOT_FOUND ∧
    (findF cfgLinear tblLinear (some ['z'])).2.probes ≠ tblLinear.probes := by
  decide

/-- C2 (amended): every failing public operation leaves the slot array,
count, capacity, expansions and released values exactly as they were, and
only the lifetime probes counter may grow: null-key insert, null-key
remove and null-key find fail without touching anything; a failing find
or remove of a non-null key fails with E_ITEM_NOT_FOUND and changes only
probes; an insert of a non-null key that fails without triggering growth
fails with E_NO_MEMORY and changes only probes. -/
theorem C2_failure_frame {V : Type} (fuel : Nat) (cfg : OAHTConfig V) (s : HT V)
    (v : Option V) (k : CKey) :
    insertF (fuel + 1) cfg s none v = some (.error .E_NO_MEMORY, s) ∧
    removeF (fuel + 1) cfg s none = some (.error .E_ITEM_NOT_FOUND, s) ∧
    findF cfg s none = (.error .E_ITEM_NOT_FOUND, s) ∧
    (∀ e, (findF cfg s (some k)).1 = .error e →
      e = .E_ITEM_NOT_FOUND ∧ (findF cfg s (some k)).2.table = s.table ∧
        (findF cfg s (some k)).2.count = s.count ∧
        (findF cfg s (some k)).2.expansions = s.expansions ∧
        (findF cfg s (some k)).2.released = s.released ∧
        s.probes ≤ (findF cfg s (some k)).2.probes) ∧
    (∀ s2, removeF (fuel + 1) cfg s (some k) = some (.error .E_ITEM_NOT_FOUND, s2) →
      s2.table = s.table ∧ s2.count = s.count ∧ s2.expansions = s.expansions ∧
        s2.released = s.released ∧ s.probes ≤ s2.probes) ∧
    (∀ e s2, CheckResizeRequired cfg s = false →
      insertF (fuel + 1) cfg s (some k) v = some (.error e, s2) →
      e = .E_NO_MEMORY ∧ s2.table = s.table ∧ s2.count = s.count ∧
        s2.expansions = s.expansions ∧ s2.released = s.released ∧ s.probes ≤ s2.probes) := by
  refine ⟨rfl, rfl, rfl, ?_, ?_, ?_⟩
  · intro e he
    obtain ⟨ht, hc, hx, hr⟩ := findF_frame cfg s (some k)
    exact ⟨findF_error_kind he, ht, hc, hx, hr, findF_probes_ge cfg s (some k)⟩
  · intro s2 hrm
    exact removeF_notfound_frame hrm
  · intro e s2 hcr hins
    rw [insertF_noresize fuel hcr, Option.some_inj] at hins
    rcases linearProbeInsert_shape cfg s k v with ⟨c, pc, he⟩ | ⟨pc, he⟩
    · rw [he] at hins
      have := congrArg Prod.fst hins
      cases this
    · rw [he] at hins
      injection hins with h1 h2
      injection h1 with h1
      rw [← h2]
      exact ⟨h1.symm, rfl, rfl, rfl, rfl, by dsimp only; omega⟩

/-- Witness for C2: a failing remove on the empty table keeps everything
but the probes counter. -/
theorem C2_failure_frame_witness :
    removeF 10 cfgLinear tblLinear (some ['z']) =
      some (.error .E_ITEM_NOT_FOUND, ⟨List.replicate 3 default, 0, 1, 0, []⟩) ∧
    ((⟨List.replicate 3 default, 0, 1, 0, []⟩ : HT Nat).table = tblLinear.table ∧
      (⟨List.replicate 3 default, 0, 1, 0, []⟩ : HT Nat).count = tblLinear.count ∧
      (⟨List.replicate 3 default, 0, 1, 0, []⟩ : HT Nat).expansions = tblLinear.expansions ∧
      (⟨List.replicate 3 default, 0, 1, 0, []⟩ : HT Nat).released = tblLinear.released ∧
      tblLinear.probes ≤ (⟨List.replicate 3 default, 0, 1, 0, []⟩ : HT Nat).probes) :=
  ⟨by decide,
    (C2_failure_frame 9 cfgLinear tblLinear (some 0) ['z']).2.2.2.2.1
      ⟨List.replicate 3 default, 0, 1, 0, []⟩ (by decide)⟩

/-- find succeeds whenever some step j of the probe walk matches the key
and no step up to j sees an UNOCCUPIED slot (the search can stop earlier
only on a match, which also succeeds). -/
theorem findF_ok_exists {V : Type} {cfg : OAHTConfig V} {s : HT V} {k : CKey}
    (horig : cfg.PrimaryHashFunc k s.tableSize < s.tableSize)
    (hcop : Nat.Coprime (strideOf cfg k s.tableSize) s.tableSize)
    (j : Nat) (hj : j < s.tableSize)
    (hMq : isMatchAt s.table s.tableSize (cfg.PrimaryHashFunc k s.tableSize)
      (strideOf cfg k s.tableSize) k j)
    (hnoE : ∀ l, l ≤ j → ¬ isEmptyAt s.table s.tableSize (cfg.PrimaryHashFunc k s.tableSize)
      (strideOf cfg k s.tableSize) l) :
    ∃ w, (findF cfg s (some k)).1 = .ok w := by
  rcases hFS : firstIdxBelow (fun l => decide (isMatchAt s.table s.tableSize
      (cfg.PrimaryHashFunc k s.tableSize) (strideOf cfg k s.tableSize) k l ∨
        isEmptyAt s.table s.tableSize (cfg.PrimaryHashFunc k s.tableSize)
          (strideOf cfg k s.tableSize) l)) s.tableSize with _ | j0
  · have := firstIdxBelow_none_inv hFS j hj
    exact absurd (Or.inl hMq) (of_decide_eq_false this)
  · obtain ⟨hj0m, hj0t, hj0min⟩ := firstIdxBelow_some_inv hFS
    have hstop := of_decide_eq_true hj0t
    have hj0le : j0 ≤ j := by
      by_contra hc
      exact absurd (decide_eq_true (Or.inl hMq))
        (by rw [hj0min j (by omega)]; exact Bool.false_ne_true)
    have hM0 : isMatchAt s.table s.tableSize (cfg.PrimaryHashFunc k s.tableSize)
        (strideOf cfg k s.tableSize) k j0 := by
      rcases hstop with h | h
      · exact h
      · exact absurd h (hnoE j0 hj0le)
    have hmin0 : ∀ l, l < j0 →
        ¬ isMatchAt s.table s.tableSize (cfg.PrimaryHashFunc k s.tableSize)
            (strideOf cfg k s.tableSize) k l ∧
          ¬ isEmptyAt s.table s.tableSize (cfg.PrimaryHashFunc k s.tableSize)
            (strideOf cfg k s.tableSize) l := by
      intro l hl
      have hpl := of_decide_eq_false (hj0min l hl)
      exact ⟨fun h => hpl (Or.inl h), fun h => hpl (Or.inr h)⟩
    unfold findF
    dsimp only
    rw [searchLoop_found hcop horig hj0m hM0 hmin0]
    exact ⟨_, rfl⟩

/-- C9 counterexample: under the Pack policy (cfgDouble: keys a and x
with home slots 0 and 1 and strides 1 and 2), a table reached purely
through the public API (insert a=1; insert x=9; insert a=2; remove x;
remove a) ends with the duplicate occurrence of a still OCCUPIED in slot
2, yet find(a) fails: removing one occurrence of a duplicated key broke
lookup of the other. -/
theorem C9_counterexample :
    (Option.bind (insertF 10 cfgDouble (mkOAHashTable cfgDouble) (some ['a']) (some 1)) fun r1 =>
      Option.bind (insertF 10 cfgDouble r1.2 (some ['x']) (some 9)) fun r2 =>
        Option.bind (insertF 10 cfgDouble r2.2 (some ['a']) (some 2)) fun r3 =>
          Option.bind (removeF 10 cfgDouble r3.2 (some ['x'])) fun r4 =>
            removeF 10 cfgDouble r4.2 (some ['a'])) =
      some (.ok (), ⟨[⟨.UNOCCUPIED, ['a'], some 1⟩, ⟨.UNOCCUPIED, ['x'], some 9⟩,
        ⟨.OCCUPIED, ['a'], some 2⟩, default, default], 1, 7, 0, []⟩) ∧
    ((⟨[⟨.UNOCCUPIED, ['a'], some 1⟩, ⟨.UNOCCUPIED, ['x'], some 9⟩,
        ⟨.OCCUPIED, ['a'], some 2⟩, default, default], 1, 7, 0, []⟩ : HT Nat).table.getD 2
      default).State = .OCCUPIED ∧
    ((⟨[⟨.UNOCCUPIED, ['a'], some 1⟩, ⟨.UNOCCUPIED, ['x'], some 9⟩,
        ⟨.OCCUPIED, ['a'], some 2⟩, default, default], 1, 7, 0, []⟩ : HT Nat).table.getD 2
      default).Key = ['a'] ∧
    (findF cfgDouble ⟨[⟨.UNOCCUPIED, ['a'], some 1⟩, ⟨.UNOCCUPIED, ['x'], some 9⟩,
        ⟨.OCCUPIED, ['a'], some 2⟩, default, default], 1, 7, 0, []⟩ (some ['a'])).1 =
      .error .E_ITEM_NOT_FOUND := by
  decide

/-- C9 (amended): under the MARK deletion policy, when steps ip < iq of a
key's probe walk are both OCCUPIED matches, step ip is the first match,
and no step up to iq is UNOCCUPIED, remove(key) succeeds, tombstones only
the slot of step ip (every other slot is untouched), decrements count,
leaves the slot of step iq OCCUPIED with the key, and a subsequent
find(key) still succeeds.  (Under the PACK policy the compaction can
break lookup of the surviving duplicate.) -/
theorem C9_duplicate_remove_mark {V : Type} (fuel : Nat) (cfg : OAHTConfig V) (s : HT V)
    (k : CKey) (ip iq : Nat)
    (hpol : cfg.DeletionPolicy = .MARK)
    (horig : cfg.PrimaryHashFunc k s.tableSize < s.tableSize)
    (hcop : Nat.Coprime (strideOf cfg k s.tableSize) s.tableSize)
    (hip : ip < s.tableSize) (hiq : iq < s.tableSize) (hlt : ip < iq)
    (hMp : isMatchAt s.table s.tableSize (cfg.PrimaryHashFunc k s.tableSize)
      (strideOf cfg k s.tableSize) k ip)
    (hmin : ∀ l, l < ip →
      ¬ isMatchAt s.table s.tableSize (cfg.PrimaryHashFunc k s.tableSize)
          (strideOf cfg k s.tableSize) k l ∧
        ¬ isEmptyAt s.table s.tableSize (cfg.PrimaryHashFunc k s.tableSize)
          (strideOf cfg k s.tableSize) l)
    (hMq : isMatchAt s.table s.tableSize (cfg.PrimaryHashFunc k s.tableSize)
      (strideOf cfg k s.tableSize) k iq)
    (hnoE : ∀ l, l ≤ iq → ¬ isEmptyAt s.table s.tableSize (cfg.PrimaryHashFunc k s.tableSize)
      (strideOf cfg k s.tableSize) l) :
    ∃ s2, removeF fuel cfg s (some k) = some (.ok (), s2) ∧
      (∀ jdx, jdx ≠ probe s.tableSize (cfg.PrimaryHashFunc k s.tableSize)
          (strideOf cfg k s.tableSize) ip →
        s2.table.getD jdx default = s.table.getD jdx default) ∧
      (s2.table.getD (probe s.tableSize (cfg.PrimaryHashFunc k s.tableSize)
        (strideOf cfg k s.tableSize) ip) default).State = .DELETED ∧
      s2.count = s.count - 1 ∧
      (s2.table.getD (probe s.tableSize (cfg.PrimaryHashFunc k s.tableSize)
        (strideOf cfg k s.tableSize) iq) default).State = .OCCUPIED ∧
      (s2.table.getD (probe s.tableSize (cfg.PrimaryHashFunc k s.tableSize)
        (strideOf cfg k s.tableSize) iq) default).Key = k ∧
      ∃ w, (findF cfg s2 (some k)).1 = .ok w := by
  have hm : 0 < s.tableSize := by omega
  have hqp : probe s.tableSize (cfg.PrimaryHashFunc k s.tableSize)
      (strideOf cfg k s.tableSize) iq ≠ probe s.tableSize (cfg.PrimaryHashFunc k s.tableSize)
      (strideOf cfg k s.tableSize) ip :=
    fun hc => absurd (probe_inj hcop hiq hip hc) (by omega)
  have main : ∀ s2 : HT V,
      s2.table.length = s.table.length →
      (∀ jdx, jdx ≠ probe s.tableSize (cfg.PrimaryHashFunc k s.tableSize)
          (strideOf cfg k s.tableSize) ip →
        s2.table.getD jdx default = s.table.getD jdx default) →
      (s2.table.getD (probe s.tableSize (cfg.PrimaryHashFunc k s.tableSize)
        (strideOf cfg k s.tableSize) ip) default).State = .DELETED →
      s2.count = s.count - 1 →
      ((∀ jdx, jdx ≠ probe s.tableSize (cfg.PrimaryHashFunc k s.tableSize)
            (strideOf cfg k s.tableSize) ip →
          s2.table.getD jdx default = s.table.getD jdx default) ∧
        (s2.table.getD (probe s.tableSize (cfg.PrimaryHashFunc k s.tableSize)
          (strideOf cfg k s.tableSize) ip) default).State = .DELETED ∧
        s2.count = s.count - 1 ∧
        (s2.table.getD (probe s.tableSize (cfg.PrimaryHashFunc k s.tableSize)
          (strideOf cfg k s.tableSize) iq) default).State = .OCCUPIED ∧
        (s2.table.getD (probe s.tableSize (cfg.PrimaryHashFunc k s.tableSize)
          (strideOf cfg k s.tableSize) iq) default).Key = k ∧
        ∃ w, (findF cfg s2 (some k)).1 = .ok w) := by
    intro s2 hlen hne hdel hcnt
    have hts : s2.tableSize = s.tableSize := hlen
    have hocc : (s2.table.getD (probe s.tableSize (cfg.PrimaryHashFunc k s.tableSize)
        (strideOf cfg k s.tableSize) iq) default).State = .OCCUPIED := by
      rw [hne _ hqp]
      exact hMq.1
    have hkey : (s2.table.getD (probe s.tableSize (cfg.PrimaryHashFunc k s.tableSize)
        (strideOf cfg k s.tableSize) iq) default).Key = k := by
      rw [hne _ hqp]
      exact hMq.2
    refine ⟨hne, hdel, hcnt, hocc, hkey, ?_⟩
    refine findF_ok_exists ?_ ?_ iq ?_ ?_ ?_
    · rw [hts]
      exact horig
    · rw [hts]
      exact hcop
    · rw [hts]
      exact hiq
    · rw [hts]
      exact ⟨hocc, hkey⟩
    · rw [hts]
      intro l hl hE
      unfold isEmptyAt stepSlot at hE
      by_cases hpl : probe s.tableSize (cfg.PrimaryHashFunc k s.tableSize)
          (strideOf cfg k s.tableSize) l = probe s.tableSize (cfg.PrimaryHashFunc k s.tableSize)
          (strideOf cfg k s.tableSize) ip
      · rw [hpl] at hE
        rw [hdel] at hE
        cases hE
      · rw [hne _ hpl] at hE
        exact hnoE l hl hE
  have hplen : probe s.tableSize (cfg.PrimaryHashFunc k s.tableSize)
      (strideOf cfg k s.tableSize) ip < s.table.length := probe_lt hm
  unfold removeF
  dsimp only
  rw [searchLoop_found hcop horig hip hMp hmin]
  dsimp only
  rw [hpol]
  dsimp only
  rcases hd : (s.table.getD (probe s.tableSize (cfg.PrimaryHashFunc k s.tableSize)
      (strideOf cfg k s.tableSize) ip) default).data with _ | v0
  · rw [hd]
    dsimp only
    refine ⟨_, rfl, main _ (by simp [List.length_set]) ?_ ?_ rfl⟩
    · intro jdx hj
      exact getD_set_ne (Ne.symm hj)
    · rw [getD_set_self hplen]
  · dsimp only
    rcases hfp : cfg.FreeProc with _ | _
    · rw [if_neg Bool.false_ne_true]
      refine ⟨_, rfl, main _ (by simp [List.length_set]) ?_ ?_ rfl⟩
      · intro jdx hj
        exact getD_set_ne (Ne.symm hj)
      · rw [getD_set_self hplen]
    · rw [if_pos rfl]
      refine ⟨_, rfl, main _ (by simp [List.length_set]) ?_ ?_ rfl⟩
      · intro jdx hj
        dsimp only
        rw [getD_set_ne (Ne.symm hj), getD_set_ne (Ne.symm hj)]
      · dsimp only
        rw [getD_set_self (by simpa using hplen)]

/-- Witness for C9 on a Mark table holding two occurrences of key a. -/
theorem C9_duplicate_remove_mark_witness :
    ∃ s2, removeF 10 cfgLinear
        ⟨[⟨.OCCUPIED, ['a'], some 1⟩, ⟨.OCCUPIED, ['a'], some 2⟩, default], 2, 0, 0, []⟩
        (some ['a']) = some (.ok (), s2) ∧
      (s2.table.getD 1 default).State = .OCCUPIED ∧
      (s2.table.getD 1 default).Key = ['a'] ∧
      ∃ w, (findF cfgLinear s2 (some ['a'])).1 = .ok w := by
  obtain ⟨s2, h1, h2, h3, h4, h5, h6, h7⟩ :=
    C9_duplicate_remove_mark 10 cfgLinear
      ⟨[⟨.OCCUPIED, ['a'], some 1⟩, ⟨.OCCUPIED, ['a'], some 2⟩, default], 2, 0, 0, []⟩
      ['a'] 0 1 rfl (by decide) (by decide) (by decide) (by decide) (by decide)
      (by decide) (by decide) (by decide) (by decide)
  exact ⟨s2, h1, h5, h6, h7⟩

end OAHT








